import Mathlib

/-!
Verification development for the LFU content index of `exchange/stat.go`
(package `exchange`): the `Index` type with its held bucket list, persistent
map, eviction policy and interest list.

Modelling conventions (shallow embedding of the Go source):
* Content ids (`cid.String()` keys) are modelled as natural numbers; distinct
  cids have distinct string keys.
* Go's `map[string]*DataRef` maps are modelled as association lists with
  `mapGet` / `mapSet` / `mapDel`; lookup semantics agree and the list order is
  irrelevant to lookups.
* Go's `map[*DataRef]byte` bucket-membership sets are modelled as lists of
  records in insertion order.  Go map iteration order is unspecified
  (randomised); the list order realises one schedule consistent with the
  source, namely the order entries were added to the bucket.
* `uint64` quantities are natural numbers; the wrapping subtraction of
  `Available` is modelled with an explicit `% 2^64`.  `int64` frequencies and
  bucket ids are `Int`; all scenarios in the claims stay far from `int64`
  overflow.
* The mutable `*DataRef` objects shared between `idx.Refs` and the bucket
  list are modelled by storing the record value in both places; every
  operation updates both, exactly as the shared pointer does in Go.
* `ref.bucketNode`, the back-pointer into the bucket list, is `nil` exactly
  when the record's key is in no bucket (fresh records passed to `SetRef`);
  the model locates the current bucket by key.  Re-`SetRef` of an
  already-held key (two live objects for one key) is outside the operation
  discipline used in the theorems, matching how the surrounding code calls
  `SetRef` with freshly committed content.
* `Flush` serialises the HAMT root; it does not change any state observed by
  the claims, so the model keeps the persistent map contents (`root`) and
  treats the flush itself as a no-op that succeeds.
* `idx.ms.Delete` (sub-store deletion) fails exactly for store ids listed in
  the `msFails` field, modelling the best-effort multistore delete.
-/

namespace Pop

abbrev Key := Nat

/-- `2^64`, the modulus of Go's `uint64` arithmetic (as a literal so that
`omega` can reason about the reductions). -/
def U64 : Nat := 18446744073709551616

/-- Wrapping `uint64` subtraction `a - b` (both arguments reduced mod `2^64`). -/
def sub64 (a b : Nat) : Nat := (a % U64 + U64 - b % U64) % U64

/-- `DataRef` from stat.go: information about one content DAG committed for
storage.  The runtime-only `bucketNode` back-pointer is represented by key
lookup into the bucket list (see module comment). -/
structure DataRef where
  payloadCID : Key
  payloadSize : Nat
  storeID : Nat
  freq : Int
  bucketID : Int
deriving Repr, DecidableEq

/-- A frequency bucket of the held list (`bucket` in stat.go): an id and the
set of member records (`map[*DataRef]byte`, modelled in insertion order). -/
structure Bucket where
  id : Int
  entries : List DataRef
deriving Repr, DecidableEq

/-- An interest-list bucket (`listEntry` in stat.go): member records grouped
by their aggregated remote frequency. -/
structure LEntry where
  freq : Int
  entries : List DataRef
deriving Repr, DecidableEq

/-- Go map lookup `m[k]`. -/
def mapGet (m : List (Key × DataRef)) (k : Key) : Option DataRef :=
  match m with
  | [] => none
  | p :: rest => if p.1 = k then some p.2 else mapGet rest k

/-- Go map assignment `m[k] = v`. -/
def mapSet (m : List (Key × DataRef)) (k : Key) (v : DataRef) : List (Key × DataRef) :=
  match m with
  | [] => [(k, v)]
  | p :: rest => if p.1 = k then (k, v) :: rest else p :: mapSet rest k v

/-- Go map deletion `delete(m, k)`. -/
def mapDel (m : List (Key × DataRef)) (k : Key) : List (Key × DataRef) :=
  match m with
  | [] => []
  | p :: rest => if p.1 = k then rest else p :: mapDel rest k

/-- Sum of `PayloadSize` over the records of a map, as accumulated in
`idx.size`. -/
def sumSizes (m : List (Key × DataRef)) : Nat :=
  (m.map (fun p => p.2.payloadSize)).sum

/-- All records of a bucket list, front to back (`ListRefs` walk order). -/
def blistRecs (bl : List Bucket) : List DataRef :=
  (bl.map Bucket.entries).flatten

/-- The content-id keys present in a bucket list. -/
def blistKeys (bl : List Bucket) : List Key :=
  (blistRecs bl).map DataRef.payloadCID

/-- The `Index` state of stat.go restricted to the fields the claims observe:
bounds, accumulated size, held bucket list, held map `Refs`, the persistent
HAMT contents, the set of store ids whose multistore deletion fails, and the
interest list and map. -/
structure Index where
  ub : Nat
  lb : Nat
  size : Nat
  blist : List Bucket
  refs : List (Key × DataRef)
  root : List (Key × DataRef)
  msFails : List Nat
  freqs : List LEntry
  interest : List (Key × DataRef)
deriving Repr, DecidableEq

/-- `NewIndex` with `WithBounds(ub, lb)` over an empty datastore: empty
lists and maps, size 0.  (`WithBounds` panics when `ub < lb`, so theorems
using bounds carry `lb ≤ ub`.) -/
def newIndex (ub lb : Nat) (msFails : List Nat) : Index :=
  { ub := ub, lb := lb, size := 0, blist := [], refs := [], root := [],
    msFails := msFails, freqs := [], interest := [] }

/-- `Index.Available`: `margin := ub − lb`; return 0 when `ub − size`
(wrapping `uint64` subtraction) is below the margin, else that difference.
`ub ≥ lb` holds by construction so the margin subtraction is exact. -/
def Index.Available (idx : Index) : Nat :=
  let margin := idx.ub - idx.lb
  if sub64 idx.ub idx.size < margin then 0 else sub64 idx.ub idx.size

/-- The move-up path of `Index.increment`: find the bucket containing the
record with key `r.payloadCID`; target id is the bucket's id + 1; bump the
record's frequency and set its `BucketID`; join the next bucket when its id
matches, otherwise splice in a new bucket; then remove the record from its
old bucket, unlinking it when it empties.  Returns the updated record and
list; `none` when no bucket holds the key (nil back-pointer). -/
def bumpWalk (r : DataRef) : List Bucket → Option (DataRef × List Bucket)
  | [] => none
  | b :: rest =>
    if b.entries.any (fun q => q.payloadCID = r.payloadCID) then
      let nextID := b.id + 1
      let r' := { r with freq := r.freq + 1, bucketID := nextID }
      let rem := b.entries.filter (fun q => q.payloadCID ≠ r.payloadCID)
      let keep : List Bucket := if rem.isEmpty then [] else [{ b with entries := rem }]
      some (r',
        match rest with
        | [] => keep ++ [⟨nextID, [r']⟩]
        | nb :: rest' =>
          if nb.id = nextID then keep ++ ({ nb with entries := nb.entries ++ [r'] } :: rest')
          else keep ++ (⟨nextID, [r']⟩ :: nb :: rest'))
    else (bumpWalk r rest).map (fun p => (p.1, b :: p.2))

/-- The new-entry path of `Index.increment`: a record with nil back-pointer
joins the back bucket (target id = back bucket id), or a fresh front bucket
with id 1 when the list is empty.  The frequency is not incremented. -/
def pushBackJoin (r' : DataRef) : List Bucket → List Bucket
  | [] => [⟨1, [r']⟩]
  | [b] => [{ b with entries := b.entries ++ [r'] }]
  | b :: rest => b :: pushBackJoin r' rest

/-- `Index.increment` on the record currently stored for key `r.payloadCID`:
returns the updated record (frequency bumped only on the move-up path,
`BucketID` set to the target id) and the updated bucket list. -/
def increment (r : DataRef) (bl : List Bucket) : DataRef × List Bucket :=
  match bumpWalk r bl with
  | some (r', bl') => (r', bl')
  | none =>
    match bl.getLast? with
    | none => ({ r with bucketID := 1 }, [⟨1, [{ r with bucketID := 1 }]⟩])
    | some back =>
      ({ r with bucketID := back.id }, pushBackJoin { r with bucketID := back.id } bl)

/-- The record as updated by the move-up path of `increment`: frequency
bumped, bucket id advanced by one. -/
def bumped (r0 : DataRef) : DataRef :=
  { r0 with freq := r0.freq + 1, bucketID := r0.bucketID + 1 }

/-- `Index.remBlistEntry`: delete the record keyed `k` from the bucket the
back-pointer designates; unlink the bucket when it empties. -/
def remBlist (k : Key) : List Bucket → List Bucket
  | [] => []
  | b :: rest =>
    if b.entries.any (fun r => r.payloadCID = k) then
      let rem := b.entries.filter (fun r => r.payloadCID ≠ k)
      if rem.isEmpty then rest else { b with entries := rem } :: rest
    else b :: remBlist k rest

/-- State threaded through the inner (per-bucket) eviction loop: the entries
still in the bucket, the held map, the size accountant, the evicted byte
total, and whether the target was reached. -/
structure EvRes where
  kept : List DataRef
  refs : List (Key × DataRef)
  size : Nat
  evicted : Nat
  hit : Bool
deriving Repr, DecidableEq

/-- One bucket's inner loop of `Index.evict`: walk the entries in order; each
entry is deleted from `Refs` first; when the sub-store delete fails the entry
is skipped (it stays in the bucket and its bytes stay in `size`); otherwise
the entry leaves the bucket, its bytes are added to `evicted` and deducted
from `size`; stop once `evicted ≥ target`. -/
def evictEntries (msFails : List Nat) (target : Nat) :
    List DataRef → List (Key × DataRef) → Nat → Nat → EvRes
  | [], refs, size, ev => ⟨[], refs, size, ev, false⟩
  | r :: rs, refs, size, ev =>
    let refs' := mapDel refs r.payloadCID
    if r.storeID ∈ msFails then
      let res := evictEntries msFails target rs refs' size ev
      { res with kept := r :: res.kept }
    else
      let size' := size - r.payloadSize
      let ev' := ev + r.payloadSize
      if target ≤ ev' then ⟨rs, refs', size', ev', true⟩
      else evictEntries msFails target rs refs' size' ev'

/-- State of the outer eviction walk: bucket list, held map, size, evicted. -/
structure GoRes where
  blist : List Bucket
  refs : List (Key × DataRef)
  size : Nat
  evicted : Nat
deriving Repr, DecidableEq

/-- Outer loop of `Index.evict` over the bucket list.  When a bucket is fully
drained it is removed from the list, which (in Go's `container/list.Remove`)
nils the walk pointer, so the walk stops there even if the target was not
reached; the walk only continues past a bucket that kept entries because
their sub-store deletions failed. -/
def evictGo (msFails : List Nat) (target : Nat) :
    List Bucket → List (Key × DataRef) → Nat → Nat → GoRes
  | [], refs, size, ev => ⟨[], refs, size, ev⟩
  | b :: rest, refs, size, ev =>
    let res := evictEntries msFails target b.entries refs size ev
    if res.hit then
      ⟨(if res.kept.isEmpty then rest else { b with entries := res.kept } :: rest),
        res.refs, res.size, res.evicted⟩
    else if res.kept.isEmpty then
      -- bucket drained and removed: place.Next() is nil, the walk ends
      ⟨rest, res.refs, res.size, res.evicted⟩
    else
      let g := evictGo msFails target rest res.refs res.size res.evicted
      ⟨{ b with entries := res.kept } :: g.blist, g.refs, g.size, g.evicted⟩

/-- `Index.evict(target)`: front-to-back walk evicting least-frequent
records; returns the updated index and the evicted byte total. -/
def Index.evict (idx : Index) (target : Nat) : Index × Nat :=
  let g := evictGo idx.msFails target idx.blist idx.refs idx.size 0
  ({ idx with blist := g.blist, refs := g.refs, size := g.size }, g.evicted)

/-- `Index.SetRef`: store the record, add its bytes, evict down to `lb` when
both bounds are set and `size > ub`, then `increment` and persist the record
(`root.Set` followed by `Flush`). -/
def Index.SetRef (idx : Index) (ref : DataRef) : Index :=
  let k := ref.payloadCID
  let idx1 := { idx with refs := mapSet idx.refs k ref, size := idx.size + ref.payloadSize }
  let idx2 :=
    if 0 < idx1.ub ∧ 0 < idx1.lb ∧ idx1.ub < idx1.size then
      (idx1.evict (idx1.size - idx1.lb)).1
    else idx1
  let inc := increment ref idx2.blist
  { idx2 with
      blist := inc.2
      refs := mapSet idx2.refs k inc.1
      root := mapSet idx2.root k inc.1 }

/-- `Index.GetRef`: look the record up (`ErrRefNotFound` when absent),
`increment` it, write the updated record back to the persistent map, flush. -/
def Index.GetRef (idx : Index) (k : Key) : Option DataRef × Index :=
  match mapGet idx.refs k with
  | none => (none, idx)
  | some ref =>
    let inc := increment ref idx.blist
    (some inc.1,
      { idx with
          blist := inc.2
          refs := mapSet idx.refs k inc.1
          root := mapSet idx.root k inc.1 })

/-- `Index.PeekRef`: lookup without registering a read. -/
def Index.PeekRef (idx : Index) (k : Key) : Option DataRef :=
  mapGet idx.refs k

/-- Outcomes of `Index.DropRef` in the model: success, `ErrRefNotFound`, a
propagated multistore deletion error, or the nil-pointer panic reachable when
the persistent map holds a key the in-memory map lost (stale entries left by
eviction). -/
inductive DropOut
  | ok
  | refNotFound
  | msDeleteFailed
  | nilRefPanic
deriving Repr, DecidableEq

/-- `Index.DropRef`: delete from the persistent map (`ErrRefNotFound` when
absent), remove the record from the bucket list, delete its sub-store
(propagating failure after the list removal), erase it from `Refs`, flush.
Note: the record's bytes are never deducted from `idx.size`. -/
def Index.DropRef (idx : Index) (k : Key) : DropOut × Index :=
  if (mapGet idx.root k).isNone then (DropOut.refNotFound, idx)
  else
    let root' := mapDel idx.root k
    match mapGet idx.refs k with
    | none =>
      -- `idx.Refs[k]` is nil: `ref.bucketNode` dereferences a nil pointer
      (DropOut.nilRefPanic, { idx with root := root' })
    | some ref =>
      let bl' := remBlist k idx.blist
      if ref.storeID ∈ idx.msFails then
        (DropOut.msDeleteFailed, { idx with root := root', blist := bl' })
      else
        (DropOut.ok,
          { idx with
              root := root'
              blist := bl'
              refs := mapDel idx.refs k })

/-- `Index.ListRefs`: snapshot of all held records by walking the bucket list
front to back. -/
def Index.ListRefs (idx : Index) : List DataRef :=
  blistRecs idx.blist

/-- `Index.Len`: number of held roots. -/
def Index.Len (idx : Index) : Nat :=
  idx.refs.length

/-- Fresh-insert walk of `LoadInterest`: from the front, join the bucket of
equal frequency, insert a new bucket before the first strictly greater one,
or push a new bucket at the back. -/
def interestInsertWalk (v : DataRef) : List LEntry → List LEntry
  | [] => [⟨v.freq, [v]⟩]
  | le :: rest =>
    if le.freq = v.freq then { le with entries := le.entries ++ [v] } :: rest
    else if v.freq < le.freq then ⟨v.freq, [v]⟩ :: le :: rest
    else le :: interestInsertWalk v rest

/-- Placement walk of the `LoadInterest` merge branch, starting from the
record's current bucket: join the bucket whose frequency equals the merged
frequency, insert before the first strictly greater one, else push back. -/
def mergePlaceWalk (r' : DataRef) : List LEntry → List LEntry
  | [] => [⟨r'.freq, [r']⟩]
  | le :: rest =>
    if le.freq = r'.freq then { le with entries := le.entries ++ [r'] } :: rest
    else if r'.freq < le.freq then ⟨r'.freq, [r']⟩ :: le :: rest
    else le :: mergePlaceWalk r' rest

/-- The deferred `remFreqEntry(currentPlace, ref)` of the merge branch:
remove the record keyed `k` from the bucket of its old frequency, unlinking
the bucket when it empties.  (Interest bucket frequencies are distinct, so
the old frequency identifies `currentPlace`.) -/
def remFreqAt (k : Key) (oldFreq : Int) : List LEntry → List LEntry
  | [] => []
  | le :: rest =>
    if le.freq = oldFreq then
      let rem := le.entries.filter (fun q => q.payloadCID ≠ k)
      if rem.isEmpty then rest else { le with entries := rem } :: rest
    else le :: remFreqAt k oldFreq rest

/-- Merge move of `LoadInterest`: locate the bucket currently holding key
`k`, run the placement walk from it with the merged record, then remove the
old entry. -/
def mergeMove (k : Key) (r' : DataRef) : List LEntry → List LEntry
  | [] => []
  | le :: rest =>
    if le.entries.any (fun q => q.payloadCID = k) then
      remFreqAt k le.freq (mergePlaceWalk r' (le :: rest))
    else le :: mergeMove k r' rest

/-- `remFreqEntry(ref.bucketNode, ref)` as used by `DropInterest`: remove the
record keyed `k` from the bucket holding it. -/
def remFreqByKey (k : Key) : List LEntry → List LEntry
  | [] => []
  | le :: rest =>
    if le.entries.any (fun q => q.payloadCID = k) then
      let rem := le.entries.filter (fun q => q.payloadCID ≠ k)
      if rem.isEmpty then rest else { le with entries := rem } :: rest
    else le :: remFreqByKey k rest

/-- One key of the `LoadInterest` walk (data behaviour of the `ForEach`
callback; its lock behaviour is modelled separately, see `loadWalkLock`):
skip keys already held; merge frequencies for keys already in the interest
map (no-op when the added frequency is 0); otherwise insert the remote
record into the interest map and list. -/
def loadOne (idx : Index) (kv : Key × DataRef) : Index :=
  if (mapGet idx.refs kv.1).isSome then idx
  else
    match mapGet idx.interest kv.1 with
    | some ref =>
      let nextFreq := ref.freq + kv.2.freq
      if nextFreq = ref.freq then idx
      else
        let ref' := { ref with freq := nextFreq }
        { idx with
            interest := mapSet idx.interest kv.1 ref'
            freqs := mergeMove kv.1 ref' idx.freqs }
    | none =>
      { idx with
          interest := mapSet idx.interest kv.1 kv.2
          freqs := interestInsertWalk kv.2 idx.freqs }

/-- `Index.LoadInterest` of a remote root, given as the key/record pairs the
HAMT `ForEach` yields, in walk order. -/
def Index.LoadInterest (idx : Index) (entries : List (Key × DataRef)) : Index :=
  entries.foldl loadOne idx

/-- Inner collection loop of `Interesting` over one interest bucket: add
records (in bucket order) to the output, accumulating their sizes; report
whether the running sum reached `av`. -/
def collectEntries (av : Nat) :
    List DataRef → Nat → List DataRef → Nat × List DataRef × Bool
  | [], added, out => (added, out, false)
  | r :: rs, added, out =>
    let added' := added + r.payloadSize
    let out' := out ++ [r]
    if av ≤ added' then (added', out', true) else collectEntries av rs added' out'

/-- Outer collection loop of `Interesting`: buckets from the back of the
interest list (most interesting first). -/
def collectBuckets (av : Nat) :
    List LEntry → Nat → List DataRef → List DataRef
  | [], _, out => out
  | le :: rest, added, out =>
    match collectEntries av le.entries added out with
    | (added', out', hit) => if hit then out' else collectBuckets av rest added' out'

/-- Results of `Index.Interesting`: a collection of records, the
"nothing interesting" error, or the nil-pointer panic the code hits when the
held bucket list is empty while `available() = 0` and the interest list is
not empty. -/
inductive InterestingOut
  | found (out : List DataRef)
  | nothingInteresting
  | nilFrontPanic
deriving Repr, DecidableEq

/-- `Index.Interesting`: with free space, collect from the back of the
interest list until the running sum reaches `available()`; when full, if the
most-interesting remote bucket's frequency strictly exceeds the frequency of
some record of the front held bucket, return one entry of that remote
bucket; otherwise fail.  `front.Value` is read without a nil check, which
panics when the held list is empty. -/
def Index.Interesting (idx : Index) : InterestingOut :=
  let av := idx.Available
  if 0 < av then
    InterestingOut.found (collectBuckets av idx.freqs.reverse 0 [])
  else
    match idx.freqs.getLast? with
    | none => InterestingOut.nothingInteresting
    | some entry =>
      match idx.blist.head? with
      | none => InterestingOut.nilFrontPanic
      | some front =>
        if front.entries.any (fun r => r.freq < entry.freq) then
          match entry.entries.head? with
          | some r0 => InterestingOut.found [r0]
          | none => InterestingOut.nothingInteresting
        else InterestingOut.nothingInteresting

/-- `Index.InterestLen`. -/
def Index.InterestLen (idx : Index) : Nat :=
  idx.interest.length

/-- `Index.DropInterest`: remove a ref from the interest map and list; fails
when absent. -/
def Index.DropInterest (idx : Index) (k : Key) : Option String × Index :=
  match mapGet idx.interest k with
  | none => (some "ref not found", idx)
  | some _ =>
    (none,
      { idx with
          interest := mapDel idx.interest k
          freqs := remFreqByKey k idx.freqs })

/-! ### Lock-usage skeleton of the `LoadInterest` walk (claim C10)

`LoadInterest`'s `ForEach` callback takes the held mutex `idx.mu` to check
one key's membership in `idx.Refs`, and calls `idx.mu.Unlock()` only on the
fall-through (not-held) path; the skip branch returns while still holding
the lock.  `sync.Mutex` is not reentrant: a second `Lock` while the balance
is nonzero blocks forever.  The model counts unmatched `Lock` calls and
returns `none` for a blocked acquisition. -/

/-- `idx.mu.Lock()`: succeeds only when the mutex is free. -/
def muAcquire (mu : Nat) : Option Nat :=
  if mu = 0 then some 1 else none

/-- Lock trace of one `ForEach` callback invocation for key `k`:
`Lock`, membership test, and `Unlock` only when the key is not held. -/
def loadKeyLock (held : List Key) (k : Key) (mu : Nat) : Option Nat :=
  (muAcquire mu).map (fun m => if k ∈ held then m else m - 1)

/-- Lock trace of the whole walk; `none` means the walk blocked. -/
def loadWalkLock (held : List Key) : List Key → Nat → Option Nat
  | [], mu => some mu
  | k :: ks, mu =>
    match loadKeyLock held k mu with
    | none => none
    | some mu' => loadWalkLock held ks mu'

/-! ### Operation sequences over the held index -/

/-- Public held-index operations (the state-changing ones; `PeekRef` is
included though it never changes state). -/
inductive Op
  | set (r : DataRef)
  | get (k : Key)
  | peek (k : Key)
  | drop (k : Key)
deriving Repr, DecidableEq

/-- Apply one operation to the index state. -/
def Index.step (idx : Index) : Op → Index
  | Op.set r => idx.SetRef r
  | Op.get k => (idx.GetRef k).2
  | Op.peek _ => idx
  | Op.drop k => (idx.DropRef k).2

/-- Run a sequence of operations. -/
def Index.run (idx : Index) (ops : List Op) : Index :=
  ops.foldl Index.step idx

/-- Discipline on operation sequences: every `SetRef` stores a record whose
key is not currently held (the surrounding code only ever sets freshly
committed content; re-setting a held key would leak its old object in the
bucket list). -/
def freshSets (idx : Index) : List Op → Bool
  | [] => true
  | op :: rest =>
    (match op with
     | Op.set r => (mapGet idx.refs r.payloadCID).isNone
     | _ => true) && freshSets (idx.step op) rest

/-- As `freshSets`, and additionally every inserted record carries frequency
0, the birth frequency the record lifecycle prescribes. -/
def freshZeroSets (idx : Index) : List Op → Bool
  | [] => true
  | op :: rest =>
    (match op with
     | Op.set r => (mapGet idx.refs r.payloadCID).isNone && r.freq == 0
     | _ => true) && freshZeroSets (idx.step op) rest

/-- An operation list made only of `set`s. -/
def allSets : List Op → Bool
  | [] => true
  | Op.set _ :: rest => allSets rest
  | _ :: _ => false

/-- An operation list made only of `get`s. -/
def allGets : List Op → Bool
  | [] => true
  | Op.get _ :: rest => allGets rest
  | _ :: _ => false

/-- No `drop` in the list (drops break the size accounting, see C5/C7). -/
def noDrops : List Op → Bool
  | [] => true
  | Op.drop _ :: _ => false
  | _ :: rest => noDrops rest

/-! ### Concrete scenario states used by counterexamples and witnesses -/

/-- Record A: cid 1, 100 bytes, store 1, fresh. -/
def refA : DataRef := ⟨1, 100, 1, 0, 0⟩

/-- Record B: cid 2, 100 bytes, store 2, fresh. -/
def refB : DataRef := ⟨2, 100, 2, 0, 0⟩

/-- Record C: cid 3, 100 bytes, store 3, fresh. -/
def refC : DataRef := ⟨3, 100, 3, 0, 0⟩

/-- Scenario S3: bounds (250,150); insert A=100, B=100, C=100, no reads. -/
def s3Index : Index :=
  (((newIndex 250 150 []).SetRef refA).SetRef refB).SetRef refC

/-- Sets-then-gets sequence: set A, set B, get B, get A. -/
def tieIndex : Index :=
  (newIndex 0 0 []).run [Op.set refA, Op.set refB, Op.get 2, Op.get 1]

/-- Bounds (0,0), one 100-byte record (scenario S1). -/
def s1Index : Index :=
  (newIndex 0 0 []).SetRef refA

/-- S1 followed by `DropRef(A)` (scenario S4). -/
def s4Dropped : Index :=
  (s1Index.DropRef 1).2

/-- Load one remote record for key 2, then `SetRef` the same key. -/
def loadThenSet : Index :=
  ((newIndex 0 0 []).LoadInterest [(2, ⟨2, 100, 9, 3, 0⟩)]).SetRef refB

/-- A remote root with A(freq 3) and B(freq 1), as in scenario S5. -/
def s5Root : List (Key × DataRef) :=
  [(1, ⟨1, 100, 7, 3, 0⟩), (2, ⟨2, 50, 8, 1, 0⟩)]

/-- Empty held index (default bounds 0,0) with one interest record. -/
def fullEmptyInterest : Index :=
  (newIndex 0 0 []).LoadInterest [(1, ⟨1, 100, 7, 3, 0⟩)]

/-- An index state over capacity: bounds (250,150) with 300 accumulated
bytes (used to witness the wrap branch of `Available`). -/
def overfullIndex : Index :=
  { ub := 250, lb := 150, size := 300, blist := [], refs := [], root := [],
    msFails := [], freqs := [], interest := [] }

/-! ### Invariants -/

/-- Structural well-formedness of the held state: bucket ids strictly
ascending front to back; no empty bucket; every bucket member's `BucketID`
is its bucket's id; bucket members and `Refs` agree (the shared-pointer
invariant: looking a member's key up in `Refs` yields that record, and every
`Refs` record is a bucket member); `Refs` keys key their records; keys are
unique across the bucket list and in `Refs`. -/
def SInv (idx : Index) : Prop :=
  (idx.blist.map Bucket.id).Chain' (· < ·) ∧
  (∀ b ∈ idx.blist, b.entries ≠ []) ∧
  (∀ b ∈ idx.blist, ∀ r ∈ b.entries, r.bucketID = b.id) ∧
  (∀ r ∈ blistRecs idx.blist, mapGet idx.refs r.payloadCID = some r) ∧
  (∀ p ∈ idx.refs, p.2 ∈ blistRecs idx.blist) ∧
  (∀ p ∈ idx.refs, p.2.payloadCID = p.1) ∧
  (blistKeys idx.blist).Nodup ∧
  (idx.refs.map Prod.fst).Nodup

/-- The size accountant agrees with the held map: `idx.size` is the sum of
the held records' sizes. -/
def sizeInv (idx : Index) : Prop :=
  idx.size = sumSizes idx.refs

/-- Held and interest maps are disjoint in content id. -/
def heldInterestDisjoint (idx : Index) : Prop :=
  ∀ p ∈ idx.refs, mapGet idx.interest p.1 = none

/-- Number of entries the eviction walk consumes from a bucket before the
evicted byte total reaches `t` (all of them when the total never does). -/
def evCount (t : Nat) : List DataRef → Nat
  | [] => 0
  | r :: rs => if t ≤ r.payloadSize then 1 else evCount (t - r.payloadSize) rs + 1

/-- Byte total of a record list. -/
def recSum (rs : List DataRef) : Nat :=
  (rs.map DataRef.payloadSize).sum

/-- Delete the keys of the given records from a map, in order (the `Refs`
deletions an eviction performs). -/
def delKeys (rs : List DataRef) (m : List (Key × DataRef)) : List (Key × DataRef) :=
  match rs with
  | [] => m
  | r :: rest => delKeys rest (mapDel m r.payloadCID)

/-- The back-pointer conjunct of the claimed invariant: every held record is
a member of a bucket whose id equals the record's bucket id. -/
def backPtrOK (idx : Index) : Prop :=
  ∀ p ∈ idx.refs, ∃ b ∈ idx.blist, p.2 ∈ b.entries ∧ b.id = p.2.bucketID

/-- Every record of the bucket list has bucket id = frequency + 1; holds
along sets-then-gets sequences and turns bucket order into frequency
order. -/
def freqLinkR (bl : List Bucket) : Prop :=
  ∀ q ∈ blistRecs bl, q.bucketID = q.freq + 1

/-- Shape of the bucket list while only fresh frequency-0 records have been
stored: every bucket (there is at most one, by ascending ids) is bucket 1
and all its records carry frequency 0. -/
def flatBucket (bl : List Bucket) : Prop :=
  ∀ b ∈ bl, b.id = 1 ∧ ∀ q ∈ b.entries, q.freq = 0

/-! ### Combined held/interest operation sequences (claim C6) -/

/-- Public operations over both sides of the index. -/
inductive XOp
  | set (r : DataRef)
  | get (k : Key)
  | peek (k : Key)
  | drop (k : Key)
  | loadI (entries : List (Key × DataRef))
  | dropI (k : Key)
deriving Repr

/-- Apply one combined operation. -/
def Index.xstep (idx : Index) : XOp → Index
  | XOp.set r => idx.SetRef r
  | XOp.get k => (idx.GetRef k).2
  | XOp.peek _ => idx
  | XOp.drop k => (idx.DropRef k).2
  | XOp.loadI entries => idx.LoadInterest entries
  | XOp.dropI k => (idx.DropInterest k).2

/-- Run a combined operation sequence. -/
def Index.xrun (idx : Index) (ops : List XOp) : Index :=
  ops.foldl Index.xstep idx

/-- Discipline for claim C6: no `SetRef` stores a key currently in the
interest map (`SetRef` does not purge the interest side, so such a set
leaves the key in both maps). -/
def noSetOfInterested (idx : Index) : List XOp → Bool
  | [] => true
  | op :: rest =>
    (match op with
     | XOp.set r => (mapGet idx.interest r.payloadCID).isNone
     | _ => true) && noSetOfInterested (idx.xstep op) rest

/-! ## Helper lemmas about the map model -/

theorem mapGet_set_self (m : List (Key × DataRef)) (k : Key) (v : DataRef) :
    mapGet (mapSet m k v) k = some v := by
  induction m with
  | nil => simp [mapSet, mapGet]
  | cons p rest ih =>
    by_cases h : p.1 = k
    · simp [mapSet, mapGet, h]
    · simp [mapSet, mapGet, h, ih]

theorem mapGet_set_ne (m : List (Key × DataRef)) (k k' : Key) (v : DataRef)
    (h : k' ≠ k) : mapGet (mapSet m k v) k' = mapGet m k' := by
  have hkk : ¬ k = k' := fun hh => h hh.symm
  induction m with
  | nil => simp [mapSet, mapGet, hkk]
  | cons p rest ih =>
    by_cases hp : p.1 = k
    · have hp' : ¬ p.1 = k' := by rw [hp]; exact hkk
      simp [mapSet, mapGet, hp, hp', hkk]
    · simp [mapSet, mapGet, hp, ih]

theorem mapGet_del_ne (m : List (Key × DataRef)) (k k' : Key) (h : k' ≠ k) :
    mapGet (mapDel m k) k' = mapGet m k' := by
  induction m with
  | nil => simp [mapDel]
  | cons p rest ih =>
    by_cases hp : p.1 = k
    · have hp' : ¬ p.1 = k' := by rw [hp]; exact fun hh => h hh.symm
      have hk : ¬ k = k' := fun hh => h hh.symm
      simp [mapDel, mapGet, hp, hp', hk]
    · simp [mapDel, mapGet, hp, ih]

theorem mapGet_mem (m : List (Key × DataRef)) (k : Key) (r : DataRef)
    (h : mapGet m k = some r) : (k, r) ∈ m := by
  induction m with
  | nil => simp [mapGet] at h
  | cons p rest ih =>
    by_cases hp : p.1 = k
    · simp only [mapGet, hp, if_pos] at h
      cases h
      refine List.mem_cons.mpr (Or.inl ?_)
      cases p
      simp only at hp
      subst hp
      rfl
    · simp only [mapGet, hp, if_neg, not_false_iff] at h
      exact List.mem_cons_of_mem _ (ih h)

theorem mapGet_eq_none_iff (m : List (Key × DataRef)) (k : Key) :
    mapGet m k = none ↔ k ∉ m.map Prod.fst := by
  induction m with
  | nil => simp [mapGet]
  | cons p rest ih =>
    simp only [List.map_cons, List.mem_cons, not_or]
    by_cases hp : p.1 = k
    · subst hp
      simp [mapGet]
    · simp [mapGet, hp, ih, Ne.symm hp]

theorem mapGet_isSome_of_mem (m : List (Key × DataRef)) (p : Key × DataRef)
    (h : p ∈ m) : (mapGet m p.1).isSome := by
  induction m with
  | nil => simp at h
  | cons q rest ih =>
    rcases List.mem_cons.mp h with h1 | h1
    · subst h1
      simp [mapGet]
    · by_cases hq : q.1 = p.1
      · simp [mapGet, hq]
      · simp only [mapGet, hq, if_neg, not_false_iff]
        exact ih h1

theorem mapSet_fresh (m : List (Key × DataRef)) (k : Key) (v : DataRef)
    (h : mapGet m k = none) : mapSet m k v = m ++ [(k, v)] := by
  induction m with
  | nil => simp [mapSet]
  | cons p rest ih =>
    by_cases hp : p.1 = k
    · simp [mapGet, hp] at h
    · simp only [mapGet, hp, if_neg, not_false_iff] at h
      simp [mapSet, hp, ih h]

theorem mapSet_keys_present (m : List (Key × DataRef)) (k : Key) (v : DataRef)
    (h : (mapGet m k).isSome) : (mapSet m k v).map Prod.fst = m.map Prod.fst := by
  induction m with
  | nil => simp [mapGet] at h
  | cons p rest ih =>
    by_cases hp : p.1 = k
    · simp [mapSet, hp]
    · simp only [mapGet, hp, if_neg, not_false_iff] at h
      simp [mapSet, hp, ih h]

theorem mapDel_keys (m : List (Key × DataRef)) (k : Key) :
    (mapDel m k).map Prod.fst = (m.map Prod.fst).erase k := by
  induction m with
  | nil => simp [mapDel]
  | cons p rest ih =>
    by_cases hp : p.1 = k
    · simp [mapDel, hp, List.erase_cons_head]
    · rw [show (p :: rest).map Prod.fst = p.1 :: rest.map Prod.fst from rfl,
        List.erase_cons_tail]
      · simp [mapDel, hp, ih]
      · simp [hp]

theorem sumSizes_del_add (m : List (Key × DataRef)) (k : Key) (r : DataRef)
    (h : mapGet m k = some r) :
    sumSizes (mapDel m k) + r.payloadSize = sumSizes m := by
  induction m with
  | nil => simp [mapGet] at h
  | cons p rest ih =>
    by_cases hp : p.1 = k
    · simp only [mapGet, hp, if_pos] at h
      cases h
      simp [mapDel, hp, sumSizes]
      omega
    · simp only [mapGet, hp, if_neg, not_false_iff] at h
      simp only [mapDel, hp, if_neg, not_false_iff, sumSizes, List.map_cons, List.sum_cons]
      have := ih h
      simp only [sumSizes] at this
      omega

theorem sumSizes_set_fresh (m : List (Key × DataRef)) (k : Key) (v : DataRef)
    (h : mapGet m k = none) :
    sumSizes (mapSet m k v) = sumSizes m + v.payloadSize := by
  rw [mapSet_fresh m k v h]
  simp [sumSizes]

theorem sumSizes_set_samesize (m : List (Key × DataRef)) (k : Key) (v r : DataRef)
    (h : mapGet m k = some r) (hs : v.payloadSize = r.payloadSize) :
    sumSizes (mapSet m k v) = sumSizes m := by
  induction m with
  | nil => simp [mapGet] at h
  | cons p rest ih =>
    by_cases hp : p.1 = k
    · simp only [mapGet, hp, if_pos] at h
      cases h
      simp [mapSet, hp, sumSizes, hs]
    · simp only [mapGet, hp, if_neg, not_false_iff] at h
      have hrec := ih h
      simp only [sumSizes] at hrec
      simp only [mapSet, hp, if_neg, not_false_iff, sumSizes, List.map_cons, List.sum_cons]
      omega

/-! ## Claim C4: `Available` -/

/-- Claim C4 (amended).  For `uint64` values (`lb ≤ ub < 2^64`,
`size < 2^64`), `Available` returns `ub − size` when `size ≤ lb` — including
the boundary `size = lb`, where the claimed strict comparison would return 0
but the code's `≥`-comparison returns `ub − lb` — returns 0 when
`lb < size ≤ ub`, and, because the subtraction wraps, returns the huge value
`2^64 − (size − ub)` instead of 0 when `size > ub`. -/
theorem C4_available_range (idx : Index) (hul : idx.lb ≤ idx.ub)
    (hub : idx.ub < U64) (hsz : idx.size < U64) :
    (idx.size ≤ idx.lb → idx.Available = idx.ub - idx.size) ∧
    (idx.lb < idx.size → idx.size ≤ idx.ub → idx.Available = 0) ∧
    (idx.ub < idx.size → idx.Available = U64 - (idx.size - idx.ub)) := by
  simp only [Index.Available, sub64, U64] at *
  refine ⟨fun h => ?_, fun h1 h2 => ?_, fun h => ?_⟩ <;> split <;> omega

/-- Witness for C4_available_range at the over-capacity state
(bounds (250,150), size 300): `Available` returns `2^64 − 50`. -/
theorem C4_witness :
    overfullIndex.lb ≤ overfullIndex.ub ∧ overfullIndex.ub < U64 ∧
    overfullIndex.size < U64 ∧ overfullIndex.ub < overfullIndex.size ∧
    overfullIndex.Available = U64 - (overfullIndex.size - overfullIndex.ub) :=
  ⟨by decide, by decide, by decide, by decide,
    (C4_available_range overfullIndex (by decide) (by decide) (by decide)).2.2 (by decide)⟩

/-! ## Claim C8: interest merge -/

theorem loadOne_refs (idx : Index) (kv : Key × DataRef) :
    (loadOne idx kv).refs = idx.refs := by
  by_cases h1 : (mapGet idx.refs kv.1).isSome
  · simp [loadOne, h1]
  · cases h2 : mapGet idx.interest kv.1 with
    | none => simp [loadOne, h1, h2]
    | some q =>
      by_cases hf : q.freq + kv.2.freq = q.freq <;> simp [loadOne, h1, h2, hf]

theorem loadOne_interest_other (idx : Index) (kv : Key × DataRef) (k : Key)
    (h : k ≠ kv.1) :
    mapGet (loadOne idx kv).interest k = mapGet idx.interest k := by
  by_cases h1 : (mapGet idx.refs kv.1).isSome
  · simp [loadOne, h1]
  · cases h2 : mapGet idx.interest kv.1 with
    | none => simp [loadOne, h1, h2, mapGet_set_ne _ _ _ _ h]
    | some q =>
      by_cases hf : q.freq + kv.2.freq = q.freq
      · simp [loadOne, h1, h2, hf]
      · simp [loadOne, h1, h2, hf, mapGet_set_ne _ _ _ _ h]

theorem loadOne_interest_fresh (idx : Index) (kv : Key × DataRef)
    (h1 : mapGet idx.refs kv.1 = none) (h2 : mapGet idx.interest kv.1 = none) :
    mapGet (loadOne idx kv).interest kv.1 = some kv.2 := by
  simp [loadOne, h1, h2, mapGet_set_self]

theorem loadOne_interest_merge (idx : Index) (kv : Key × DataRef) (q : DataRef)
    (h1 : mapGet idx.refs kv.1 = none) (h2 : mapGet idx.interest kv.1 = some q) :
    mapGet (loadOne idx kv).interest kv.1 =
      some { q with freq := q.freq + kv.2.freq } := by
  by_cases hf : q.freq + kv.2.freq = q.freq
  · have hq : ({ q with freq := q.freq + kv.2.freq } : DataRef) = q := by
      cases q
      simp_all
    simp [loadOne, h1, h2, hf, hq]
  · simp [loadOne, h1, h2, hf, mapGet_set_self]

theorem loadOne_noop (idx : Index) (kv : Key × DataRef) (hf : kv.2.freq = 0)
    (h : (mapGet idx.refs kv.1).isSome ∨ (mapGet idx.interest kv.1).isSome) :
    loadOne idx kv = idx := by
  by_cases h1 : (mapGet idx.refs kv.1).isSome
  · simp [loadOne, h1]
  · rcases h with h | h
    · exact absurd h h1
    · rcases Option.isSome_iff_exists.mp h with ⟨q, hq⟩
      simp [loadOne, h1, hq, hf]

theorem LoadInterest_refs (idx : Index) (root : List (Key × DataRef)) :
    (idx.LoadInterest root).refs = idx.refs := by
  induction root generalizing idx with
  | nil => rfl
  | cons kv rest ih =>
    show ((loadOne idx kv).LoadInterest rest).refs = idx.refs
    rw [ih, loadOne_refs]

theorem LoadInterest_interest_other (idx : Index) (root : List (Key × DataRef))
    (k : Key) (hk : k ∉ root.map Prod.fst) :
    mapGet (idx.LoadInterest root).interest k = mapGet idx.interest k := by
  induction root generalizing idx with
  | nil => rfl
  | cons kv rest ih =>
    simp only [List.map_cons, List.mem_cons, not_or] at hk
    show mapGet ((loadOne idx kv).LoadInterest rest).interest k = mapGet idx.interest k
    rw [ih _ hk.2, loadOne_interest_other _ _ _ hk.1]

theorem load_fresh_all (idx : Index) (root : List (Key × DataRef))
    (hnd : (root.map Prod.fst).Nodup)
    (h : ∀ kv ∈ root, mapGet idx.refs kv.1 = none ∧ mapGet idx.interest kv.1 = none) :
    ∀ kv ∈ root, mapGet (idx.LoadInterest root).interest kv.1 = some kv.2 := by
  induction root generalizing idx with
  | nil => simp
  | cons kv rest ih =>
    simp only [List.map_cons, List.nodup_cons] at hnd
    intro kv' hkv'
    rcases List.mem_cons.mp hkv' with h' | h'
    · subst h'
      show mapGet ((loadOne idx kv').LoadInterest rest).interest kv'.1 = some kv'.2
      rw [LoadInterest_interest_other _ _ _ hnd.1]
      exact loadOne_interest_fresh _ _ (h kv' (by simp)).1 (h kv' (by simp)).2
    · show mapGet ((loadOne idx kv).LoadInterest rest).interest kv'.1 = some kv'.2
      refine ih (loadOne idx kv) hnd.2 (fun p hp => ?_) kv' h'
      have hne : p.1 ≠ kv.1 := by
        intro hcontra
        exact hnd.1 (hcontra ▸ List.mem_map_of_mem Prod.fst hp)
      constructor
      · rw [loadOne_refs]
        exact (h p (List.mem_cons_of_mem _ hp)).1
      · rw [loadOne_interest_other _ _ _ hne]
        exact (h p (List.mem_cons_of_mem _ hp)).2

theorem load_merge_all (idx : Index) (root : List (Key × DataRef))
    (hnd : (root.map Prod.fst).Nodup)
    (h : ∀ kv ∈ root, mapGet idx.refs kv.1 = none ∧
      mapGet idx.interest kv.1 = some kv.2) :
    ∀ kv ∈ root, mapGet (idx.LoadInterest root).interest kv.1 =
      some { kv.2 with freq := kv.2.freq + kv.2.freq } := by
  induction root generalizing idx with
  | nil => simp
  | cons kv rest ih =>
    simp only [List.map_cons, List.nodup_cons] at hnd
    intro kv' hkv'
    rcases List.mem_cons.mp hkv' with h' | h'
    · subst h'
      show mapGet ((loadOne idx kv').LoadInterest rest).interest kv'.1 = _
      rw [LoadInterest_interest_other _ _ _ hnd.1]
      exact loadOne_interest_merge _ _ _ (h kv' (by simp)).1 (h kv' (by simp)).2
    · show mapGet ((loadOne idx kv).LoadInterest rest).interest kv'.1 = _
      refine ih (loadOne idx kv) hnd.2 (fun p hp => ?_) kv' h'
      have hne : p.1 ≠ kv.1 := by
        intro hcontra
        exact hnd.1 (hcontra ▸ List.mem_map_of_mem Prod.fst hp)
      constructor
      · rw [loadOne_refs]
        exact (h p (List.mem_cons_of_mem _ hp)).1
      · rw [loadOne_interest_other _ _ _ hne]
        exact (h p (List.mem_cons_of_mem _ hp)).2

/-- Claim C8 (confirmed).  Loading the same remote root (with distinct keys)
twice into a fresh index sums each key's frequency exactly once per load:
every key ends with interest frequency `2 f` where `f` is its remote
frequency.  And a load whose entries all carry frequency 0 and whose keys
are already present (held or in the interest map) leaves the index unchanged
(idempotence of the re-load). -/
theorem C8_interest_merge (ub lb : Nat) (mf : List Nat)
    (root : List (Key × DataRef)) (hnd : (root.map Prod.fst).Nodup) :
    (∀ kv ∈ root, ∃ q,
        mapGet (((newIndex ub lb mf).LoadInterest root).LoadInterest root).interest kv.1 =
          some q ∧ q.freq = 2 * kv.2.freq) ∧
    (∀ (s : Index) (root2 : List (Key × DataRef)),
        (∀ kv ∈ root2, kv.2.freq = 0 ∧
          ((mapGet s.refs kv.1).isSome ∨ (mapGet s.interest kv.1).isSome)) →
        s.LoadInterest root2 = s) := by
  constructor
  · intro kv hkv
    have hfresh : ∀ p ∈ root, mapGet (newIndex ub lb mf).refs p.1 = none ∧
        mapGet (newIndex ub lb mf).interest p.1 = none := by
      intro p _
      exact ⟨rfl, rfl⟩
    have h1 := load_fresh_all (newIndex ub lb mf) root hnd hfresh
    have h2 : ∀ p ∈ root,
        mapGet ((newIndex ub lb mf).LoadInterest root).refs p.1 = none ∧
        mapGet ((newIndex ub lb mf).LoadInterest root).interest p.1 = some p.2 := by
      intro p hp
      refine ⟨?_, h1 p hp⟩
      rw [LoadInterest_refs]
      rfl
    refine ⟨{ kv.2 with freq := kv.2.freq + kv.2.freq }, ?_, ?_⟩
    · exact load_merge_all _ root hnd h2 kv hkv
    · simp [two_mul]
  · intro s root2 h
    induction root2 generalizing s with
    | nil => rfl
    | cons kv rest ih =>
      show ((loadOne s kv).LoadInterest rest) = s
      rw [loadOne_noop s kv (h kv (by simp)).1 (h kv (by simp)).2]
      exact ih s (fun p hp => h p (List.mem_cons_of_mem _ hp))

/-- Witness for C8_interest_merge on scenario S5's root (A with frequency 3,
B with frequency 1): after two loads A has frequency 6 and B has 2. -/
theorem C8_witness :
    (s5Root.map Prod.fst).Nodup ∧
    (∀ kv ∈ s5Root, ∃ q,
        mapGet (((newIndex 0 0 []).LoadInterest s5Root).LoadInterest s5Root).interest kv.1 =
          some q ∧ q.freq = 2 * kv.2.freq) :=
  ⟨by decide, (C8_interest_merge 0 0 [] s5Root (by decide)).1⟩

/-! ## Claim C6: held/interest disjointness -/

theorem mapDel_sublist (m : List (Key × DataRef)) (k : Key) :
    (mapDel m k).Sublist m := by
  induction m with
  | nil => simp [mapDel]
  | cons p rest ih =>
    by_cases hp : p.1 = k
    · simp [mapDel, hp]
    · simpa [mapDel, hp] using ih.cons₂ p

theorem mem_mapDel (m : List (Key × DataRef)) (k : Key) (p : Key × DataRef)
    (h : p ∈ mapDel m k) : p ∈ m :=
  (mapDel_sublist m k).subset h

theorem mem_mapSet (m : List (Key × DataRef)) (k : Key) (v : DataRef)
    (p : Key × DataRef) (h : p ∈ mapSet m k v) : p = (k, v) ∨ p ∈ m := by
  induction m with
  | nil => simpa [mapSet] using h
  | cons q rest ih =>
    by_cases hq : q.1 = k
    · rcases List.mem_cons.mp (by simpa [mapSet, hq] using h) with h1 | h1
      · exact Or.inl h1
      · exact Or.inr (List.mem_cons_of_mem _ h1)
    · rcases List.mem_cons.mp (by simpa [mapSet, hq] using h) with h1 | h1
      · exact Or.inr (by simp [h1])
      · rcases ih h1 with h2 | h2
        · exact Or.inl h2
        · exact Or.inr (List.mem_cons_of_mem _ h2)

theorem mapGet_del_none (m : List (Key × DataRef)) (k k' : Key)
    (h : mapGet m k = none) : mapGet (mapDel m k') k = none := by
  rw [mapGet_eq_none_iff] at h ⊢
  intro hmem
  exact h (((mapDel_sublist m k').map Prod.fst).subset hmem)

theorem evictEntries_refs_mem (mf : List Nat) (t : Nat) (es : List DataRef) :
    ∀ (refs : List (Key × DataRef)) (size ev : Nat),
      ∀ p ∈ (evictEntries mf t es refs size ev).refs, p ∈ refs := by
  induction es with
  | nil =>
    intro refs size ev p hp
    simpa [evictEntries] using hp
  | cons r rs ih =>
    intro refs size ev p hp
    simp only [evictEntries] at hp
    by_cases hs : r.storeID ∈ mf
    · simp only [hs, if_pos] at hp
      exact mem_mapDel _ _ _ (ih _ _ _ p hp)
    · simp only [hs, if_neg, not_false_iff] at hp
      by_cases ht : t ≤ ev + r.payloadSize
      · simp only [ht, if_pos] at hp
        exact mem_mapDel _ _ _ hp
      · simp only [ht, if_neg, not_false_iff] at hp
        exact mem_mapDel _ _ _ (ih _ _ _ p hp)

theorem evictGo_refs_mem (mf : List Nat) (t : Nat) (bl : List Bucket) :
    ∀ (refs : List (Key × DataRef)) (size ev : Nat),
      ∀ p ∈ (evictGo mf t bl refs size ev).refs, p ∈ refs := by
  induction bl with
  | nil =>
    intro refs size ev p hp
    simpa [evictGo] using hp
  | cons b rest ih =>
    intro refs size ev p hp
    simp only [evictGo] at hp
    by_cases h1 : (evictEntries mf t b.entries refs size ev).hit
    · simp only [h1, if_pos] at hp
      exact evictEntries_refs_mem mf t _ _ _ _ p hp
    · by_cases h2 : (evictEntries mf t b.entries refs size ev).kept.isEmpty
      · simp only [h1, h2, Bool.false_eq_true, if_false, if_pos] at hp
        exact evictEntries_refs_mem mf t _ _ _ _ p hp
      · simp only [h1, h2, Bool.false_eq_true, if_false] at hp
        exact evictEntries_refs_mem mf t _ _ _ _ p (ih _ _ _ p hp)

theorem SetRef_interest (idx : Index) (r : DataRef) :
    (idx.SetRef r).interest = idx.interest := by
  simp only [Index.SetRef, Index.evict]
  split <;> rfl

theorem GetRef_interest (idx : Index) (k : Key) :
    ((idx.GetRef k).2).interest = idx.interest := by
  cases h : mapGet idx.refs k <;> simp [Index.GetRef, h]

theorem DropRef_interest (idx : Index) (k : Key) :
    ((idx.DropRef k).2).interest = idx.interest := by
  unfold Index.DropRef
  by_cases h1 : (mapGet idx.root k).isNone
  · simp [h1]
  · cases h2 : mapGet idx.refs k with
    | none => simp [h1, h2]
    | some q =>
      by_cases h3 : q.storeID ∈ idx.msFails <;> simp [h1, h2, h3]

theorem SetRef_refs_mem (idx : Index) (r : DataRef) (p : Key × DataRef)
    (hp : p ∈ (idx.SetRef r).refs) : p.1 = r.payloadCID ∨ p ∈ idx.refs := by
  simp only [Index.SetRef, Index.evict] at hp
  by_cases hcond : 0 < idx.ub ∧ 0 < idx.lb ∧ idx.ub < idx.size + r.payloadSize
  · simp only [hcond, if_pos] at hp
    rcases mem_mapSet _ _ _ _ hp with h1 | h1
    · left
      rw [h1]
    · have h2 := evictGo_refs_mem _ _ _ _ _ _ p h1
      rcases mem_mapSet _ _ _ _ h2 with h3 | h3
      · left
        rw [h3]
      · exact Or.inr h3
  · simp only [hcond, if_neg, not_false_iff] at hp
    rcases mem_mapSet _ _ _ _ hp with h1 | h1
    · left
      rw [h1]
    · rcases mem_mapSet _ _ _ _ h1 with h2 | h2
      · left
        rw [h2]
      · exact Or.inr h2

theorem DropRef_refs_mem (idx : Index) (k : Key) (p : Key × DataRef)
    (hp : p ∈ ((idx.DropRef k).2).refs) : p ∈ idx.refs := by
  simp only [Index.DropRef] at hp
  by_cases h1 : (mapGet idx.root k).isNone
  · simpa [h1] using hp
  · simp only [h1, Bool.false_eq_true, if_false, if_neg, not_false_iff] at hp
    cases h2 : mapGet idx.refs k with
    | none => simpa [h2] using hp
    | some q =>
      by_cases h3 : q.storeID ∈ idx.msFails
      · simpa [h2, h3] using hp
      · simp only [h2, h3, if_neg, not_false_iff] at hp
        exact mem_mapDel _ _ _ hp

theorem disjoint_SetRef (idx : Index) (r : DataRef)
    (hd : heldInterestDisjoint idx)
    (hr : mapGet idx.interest r.payloadCID = none) :
    heldInterestDisjoint (idx.SetRef r) := by
  intro p hp
  rw [SetRef_interest]
  rcases SetRef_refs_mem idx r p hp with h | h
  · rw [h]
    exact hr
  · exact hd p h

theorem disjoint_GetRef (idx : Index) (k : Key)
    (hd : heldInterestDisjoint idx) :
    heldInterestDisjoint (idx.GetRef k).2 := by
  intro p hp
  rw [GetRef_interest]
  cases h : mapGet idx.refs k with
  | none =>
    simp only [Index.GetRef, h] at hp
    exact hd p hp
  | some ref =>
    simp only [Index.GetRef, h] at hp
    rcases mem_mapSet _ _ _ _ hp with h1 | h1
    · have hk := mapGet_mem _ _ _ h
      rw [h1]
      exact hd (k, ref) hk
    · exact hd p h1

theorem disjoint_DropRef (idx : Index) (k : Key)
    (hd : heldInterestDisjoint idx) :
    heldInterestDisjoint (idx.DropRef k).2 := by
  intro p hp
  rw [DropRef_interest]
  exact hd p (DropRef_refs_mem idx k p hp)

theorem disjoint_loadOne (idx : Index) (kv : Key × DataRef)
    (hd : heldInterestDisjoint idx) :
    heldInterestDisjoint (loadOne idx kv) := by
  by_cases h1 : (mapGet idx.refs kv.1).isSome
  · simpa [loadOne, h1] using hd
  · intro p hp
    rw [loadOne_refs] at hp
    have hne : p.1 ≠ kv.1 := by
      intro he
      exact h1 (he ▸ mapGet_isSome_of_mem idx.refs p hp)
    rw [loadOne_interest_other _ _ _ hne]
    exact hd p hp

theorem disjoint_LoadInterest (idx : Index) (es : List (Key × DataRef))
    (hd : heldInterestDisjoint idx) :
    heldInterestDisjoint (idx.LoadInterest es) := by
  induction es generalizing idx with
  | nil => exact hd
  | cons kv rest ih => exact ih (loadOne idx kv) (disjoint_loadOne idx kv hd)

theorem disjoint_DropInterest (idx : Index) (k : Key)
    (hd : heldInterestDisjoint idx) :
    heldInterestDisjoint (idx.DropInterest k).2 := by
  cases h2 : mapGet idx.interest k with
  | none => simpa [Index.DropInterest, h2] using hd
  | some q =>
    intro p hp
    simp only [Index.DropInterest, h2] at hp ⊢
    exact mapGet_del_none _ _ _ (hd p hp)

theorem xrun_disjoint (idx : Index) (ops : List XOp)
    (hd : heldInterestDisjoint idx)
    (hops : noSetOfInterested idx ops = true) :
    heldInterestDisjoint (idx.xrun ops) := by
  induction ops generalizing idx with
  | nil => exact hd
  | cons op rest ih =>
    simp only [noSetOfInterested, Bool.and_eq_true] at hops
    refine ih (idx.xstep op) ?_ hops.2
    cases op with
    | set r =>
      have hr : mapGet idx.interest r.payloadCID = none := by
        have h := hops.1
        simpa [Option.isNone_iff_eq_none] using h
      exact disjoint_SetRef idx r hd hr
    | get k => exact disjoint_GetRef idx k hd
    | peek k => exact hd
    | drop k => exact disjoint_DropRef idx k hd
    | loadI es => exact disjoint_LoadInterest idx es hd
    | dropI k => exact disjoint_DropInterest idx k hd

/-- Claim C6 (amended).  For every operation sequence over a fresh index —
set-ref, get-ref, peek-ref, drop-ref, load-interest, drop-interest — in
which no `SetRef` stores a key currently in the interest map, the held map
and the interest map stay disjoint in content id; in particular
`LoadInterest` never adds a currently-held key.  `SetRef` itself does not
remove its key from the interest map, so a set-ref of a previously loaded
key leaves the key alive in both maps at once (see the counterexample): the
claim's "an interest record dies when its key appears in Held" does not hold
for keys that become held via `SetRef`. -/
theorem C6_disjoint (ub lb : Nat) (mf : List Nat) (ops : List XOp)
    (hops : noSetOfInterested (newIndex ub lb mf) ops = true) :
    heldInterestDisjoint ((newIndex ub lb mf).xrun ops) :=
  xrun_disjoint (newIndex ub lb mf) ops (fun p hp => by simp [newIndex] at hp) hops

/-- Witness for C6_disjoint: load S5's root, then set and read a different
key (3) and drop interest key 1; held and interest stay disjoint. -/
theorem C6_witness :
    noSetOfInterested (newIndex 0 0 [])
      [XOp.loadI s5Root, XOp.set refC, XOp.get 3, XOp.dropI 1] = true ∧
    heldInterestDisjoint ((newIndex 0 0 []).xrun
      [XOp.loadI s5Root, XOp.set refC, XOp.get 3, XOp.dropI 1]) :=
  ⟨by decide, C6_disjoint 0 0 [] _ (by decide)⟩

/-! ## Held bucket-list machinery -/

theorem blistRecs_cons (b : Bucket) (rest : List Bucket) :
    blistRecs (b :: rest) = b.entries ++ blistRecs rest := by
  simp [blistRecs]

theorem blistKeys_cons (b : Bucket) (rest : List Bucket) :
    blistKeys (b :: rest) = b.entries.map DataRef.payloadCID ++ blistKeys rest := by
  simp [blistKeys, blistRecs_cons]

theorem perm_cons_filterKey (es : List DataRef) (r0 : DataRef)
    (hmem : r0 ∈ es) (hnd : (es.map DataRef.payloadCID).Nodup) :
    es.Perm (r0 :: es.filter (fun q => q.payloadCID ≠ r0.payloadCID)) := by
  induction es with
  | nil => simp at hmem
  | cons hd tl ih =>
    simp only [List.map_cons, List.nodup_cons] at hnd
    by_cases hh : hd.payloadCID = r0.payloadCID
    · have hr0 : r0 = hd := by
        rcases List.mem_cons.mp hmem with h1 | h1
        · exact h1
        · exact absurd (hh ▸ List.mem_map_of_mem DataRef.payloadCID h1) hnd.1
      subst hr0
      have htl : tl.filter (fun q => q.payloadCID ≠ r0.payloadCID) = tl := by
        rw [List.filter_eq_self]
        intro a ha
        simp only [ne_eq, decide_eq_true_eq]
        intro hc
        exact hnd.1 (hc ▸ List.mem_map_of_mem DataRef.payloadCID ha)
      have hfil : (r0 :: tl).filter (fun q => q.payloadCID ≠ r0.payloadCID) =
          tl.filter (fun q => q.payloadCID ≠ r0.payloadCID) := by
        simp [List.filter_cons]
      rw [hfil, htl]
    · have hr0tl : r0 ∈ tl := by
        rcases List.mem_cons.mp hmem with h1 | h1
        · exact absurd (congrArg DataRef.payloadCID h1.symm) hh
        · exact h1
      have hperm := ih hr0tl hnd.2
      have hfil : (hd :: tl).filter (fun q => q.payloadCID ≠ r0.payloadCID) =
          hd :: tl.filter (fun q => q.payloadCID ≠ r0.payloadCID) := by
        simp [List.filter_cons, hh]
      rw [hfil]
      exact (hperm.cons hd).trans (List.Perm.swap _ _ _)

theorem pushBackJoin_recs (r' : DataRef) (bl : List Bucket) (hne : bl ≠ []) :
    blistRecs (pushBackJoin r' bl) = blistRecs bl ++ [r'] := by
  induction bl with
  | nil => exact absurd rfl hne
  | cons b rest ih =>
    cases rest with
    | nil => simp [pushBackJoin, blistRecs]
    | cons b2 rest2 =>
      show blistRecs (b :: pushBackJoin r' (b2 :: rest2)) = _
      rw [blistRecs_cons, ih (by simp)]
      simp [blistRecs_cons, List.append_assoc]

theorem pushBackJoin_ids (r' : DataRef) (bl : List Bucket) (hne : bl ≠ []) :
    (pushBackJoin r' bl).map Bucket.id = bl.map Bucket.id := by
  induction bl with
  | nil => exact absurd rfl hne
  | cons b rest ih =>
    cases rest with
    | nil => simp [pushBackJoin]
    | cons b2 rest2 =>
      show (b :: pushBackJoin r' (b2 :: rest2)).map Bucket.id = _
      rw [List.map_cons, ih (by simp)]
      simp

theorem pushBackJoin_mem (r' : DataRef) (bl : List Bucket) (hne : bl ≠ []) :
    ∀ b' ∈ pushBackJoin r' bl,
      b' ∈ bl ∨ ∃ b, bl.getLast? = some b ∧ b' = { b with entries := b.entries ++ [r'] } := by
  induction bl with
  | nil => exact absurd rfl hne
  | cons b rest ih =>
    intro b' hb'
    cases rest with
    | nil =>
      simp only [pushBackJoin] at hb'
      rcases List.mem_singleton.mp hb' with rfl
      exact Or.inr ⟨b, rfl, rfl⟩
    | cons b2 rest2 =>
      rcases List.mem_cons.mp (by simpa [pushBackJoin] using hb') with h1 | h1
      · exact Or.inl (by simp [h1])
      · rcases ih (by simp) b' h1 with h2 | ⟨bb, hbb, he⟩
        · exact Or.inl (List.mem_cons_of_mem _ h2)
        · refine Or.inr ⟨bb, ?_, he⟩
          rw [List.getLast?_cons_cons]
          exact hbb

/-- Specification of the move-up walk on a well-formed bucket list holding
`r0`: it returns the bumped record and a list in which `r0` was replaced by
`bumped r0` one bucket further; ascending ids, non-emptiness and the
bucket-id labelling are preserved, and the head bucket's id does not
decrease. -/
theorem bumpWalk_spec (r0 : DataRef) (bl : List Bucket)
    (hasc : (bl.map Bucket.id).Chain' (· < ·))
    (hne : ∀ b ∈ bl, b.entries ≠ [])
    (hbid : ∀ b ∈ bl, ∀ q ∈ b.entries, q.bucketID = b.id)
    (hknd : (blistKeys bl).Nodup)
    (hmem : r0 ∈ blistRecs bl) :
    ∃ bl' rem,
      bumpWalk r0 bl = some (bumped r0, bl') ∧
      (blistRecs bl).Perm (r0 :: rem) ∧
      (blistRecs bl').Perm (bumped r0 :: rem) ∧
      (bl'.map Bucket.id).Chain' (· < ·) ∧
      (∀ b ∈ bl', b.entries ≠ []) ∧
      (∀ b ∈ bl', ∀ q ∈ b.entries, q.bucketID = b.id) ∧
      (∃ hb' t', bl' = hb' :: t' ∧ ∃ hb t, bl = hb :: t ∧ hb.id ≤ hb'.id) := by
  induction bl with
  | nil => simp [blistRecs] at hmem
  | cons b rest ih =>
    rw [blistRecs_cons] at hmem
    have hsplit := List.nodup_append.mp (by rw [blistKeys_cons] at hknd; exact hknd)
    by_cases hf : b.entries.any (fun q => q.payloadCID = r0.payloadCID)
    · -- r0 lives in this bucket
      have hr0b : r0 ∈ b.entries := by
        rcases List.mem_append.mp hmem with h1 | h1
        · exact h1
        · exfalso
          rcases List.any_eq_true.mp hf with ⟨q, hq, hqk⟩
          have hqk' : q.payloadCID = r0.payloadCID := of_decide_eq_true hqk
          have h2 : q.payloadCID ∈ b.entries.map DataRef.payloadCID :=
            List.mem_map_of_mem _ hq
          have h3 : r0.payloadCID ∈ blistKeys rest := List.mem_map_of_mem _ h1
          exact hsplit.2.2 h2 (hqk' ▸ h3)
      have hb0 : r0.bucketID = b.id := hbid b (by simp) r0 hr0b
      have hr1 : ({ r0 with freq := r0.freq + 1, bucketID := b.id + 1 } : DataRef) = bumped r0 := by
        simp [bumped, hb0]
      have hpermb := perm_cons_filterKey b.entries r0 hr0b hsplit.1
      have hrem_sub : ∀ q ∈ b.entries.filter (fun q => q.payloadCID ≠ r0.payloadCID),
          q ∈ b.entries := fun q hq => (List.mem_filter.mp hq).1
      cases rest with
      | nil =>
        by_cases hre : (b.entries.filter (fun q => q.payloadCID ≠ r0.payloadCID)).isEmpty
        · have hrem0 : b.entries.filter (fun q => q.payloadCID ≠ r0.payloadCID) = [] :=
            List.isEmpty_iff.mp hre
          rw [hrem0] at hpermb
          refine ⟨[⟨b.id + 1, [bumped r0]⟩], [], ?_, ?_, ?_, ?_, ?_, ?_, ?_⟩
          · simp only [bumpWalk, hf, if_pos, hrem0, List.isEmpty_nil, if_true, hr1,
              List.nil_append]
          · rw [blistRecs_cons]
            simpa [blistRecs] using hpermb
          · simp [blistRecs]
          · simp
          · intro b' hb'
            rcases List.mem_singleton.mp hb' with rfl
            simp
          · intro b' hb'
            rcases List.mem_singleton.mp hb' with rfl
            intro q hq
            rcases List.mem_singleton.mp hq with rfl
            simp [bumped, hb0]
          · exact ⟨_, _, rfl, b, [], rfl, by show b.id ≤ b.id + 1; omega⟩
        · refine ⟨[{ b with entries := b.entries.filter (fun q => q.payloadCID ≠ r0.payloadCID) },
            ⟨b.id + 1, [bumped r0]⟩],
            b.entries.filter (fun q => q.payloadCID ≠ r0.payloadCID), ?_, ?_, ?_, ?_, ?_, ?_, ?_⟩
          · simp only [bumpWalk, hf, if_pos, hre, if_false, Bool.false_eq_true, hr1]
            rfl
          · rw [blistRecs_cons]
            simpa [blistRecs] using hpermb
          · show (b.entries.filter (fun q : DataRef => q.payloadCID ≠ r0.payloadCID) ++
              ([bumped r0] ++ [])).Perm _
            simp only [List.append_nil]
            exact List.perm_append_comm
          · simp
          · intro b' hb'
            rcases List.mem_cons.mp hb' with rfl | hb'
            · simpa using List.isEmpty_iff.not.mp hre
            · rcases List.mem_singleton.mp hb' with rfl
              simp
          · intro b' hb'
            rcases List.mem_cons.mp hb' with rfl | hb'
            · intro q hq
              exact hbid b (by simp) q (hrem_sub q hq)
            · rcases List.mem_singleton.mp hb' with rfl
              intro q hq
              rcases List.mem_singleton.mp hq with rfl
              simp [bumped, hb0]
          · exact ⟨_, _, rfl, b, [], rfl, le_refl _⟩
      | cons nb rest' =>
        by_cases hjoin : nb.id = b.id + 1
        · -- join the next bucket
          by_cases hre : (b.entries.filter (fun q => q.payloadCID ≠ r0.payloadCID)).isEmpty
          · have hrem0 : b.entries.filter (fun q => q.payloadCID ≠ r0.payloadCID) = [] :=
              List.isEmpty_iff.mp hre
            rw [hrem0] at hpermb
            refine ⟨{ nb with entries := nb.entries ++ [bumped r0] } :: rest',
              nb.entries ++ blistRecs rest', ?_, ?_, ?_, ?_, ?_, ?_, ?_⟩
            · simp only [bumpWalk, hf, if_pos, hjoin, if_true, hrem0, List.isEmpty_nil,
                hr1, List.nil_append]
            · rw [blistRecs_cons, blistRecs_cons]
              exact List.Perm.append_right _ hpermb
            · rw [blistRecs_cons]
              show ((nb.entries ++ [bumped r0]) ++ blistRecs rest').Perm _
              rw [List.append_assoc]
              exact List.perm_middle
            · have := hasc
              simp only [List.map_cons] at this ⊢
              exact (List.chain'_cons'.mp this).2
            · intro b' hb'
              rcases List.mem_cons.mp hb' with rfl | hb'
              · simp
              · exact hne b' (by simp [hb'])
            · intro b' hb'
              rcases List.mem_cons.mp hb' with rfl | hb'
              · intro q hq
                rcases List.mem_append.mp hq with hq | hq
                · exact hbid nb (by simp) q hq
                · rcases List.mem_singleton.mp hq with rfl
                  simp [bumped, hb0, hjoin]
              · exact hbid b' (by simp [hb'])
            · refine ⟨_, _, rfl, b, _, rfl, ?_⟩
              show b.id ≤ nb.id
              simp only [List.map_cons, List.chain'_cons] at hasc
              omega
          · refine ⟨{ b with entries := b.entries.filter (fun q => q.payloadCID ≠ r0.payloadCID) } ::
              { nb with entries := nb.entries ++ [bumped r0] } :: rest',
              b.entries.filter (fun q => q.payloadCID ≠ r0.payloadCID) ++
                (nb.entries ++ blistRecs rest'), ?_, ?_, ?_, ?_, ?_, ?_, ?_⟩
            · simp only [bumpWalk, hf, if_pos, hjoin, if_true, hre, if_false,
                Bool.false_eq_true, hr1]
              rfl
            · rw [blistRecs_cons, blistRecs_cons]
              exact List.Perm.append_right _ hpermb
            · rw [blistRecs_cons, blistRecs_cons]
              show (b.entries.filter (fun q : DataRef => q.payloadCID ≠ r0.payloadCID) ++
                ((nb.entries ++ [bumped r0]) ++ blistRecs rest')).Perm _
              rw [List.append_assoc]
              exact (List.Perm.append_left _ List.perm_middle).trans List.perm_middle
            · simpa using hasc
            · intro b' hb'
              rcases List.mem_cons.mp hb' with rfl | hb'
              · simpa using List.isEmpty_iff.not.mp hre
              · rcases List.mem_cons.mp hb' with rfl | hb'
                · simp
                · exact hne b' (by simp [hb'])
            · intro b' hb'
              rcases List.mem_cons.mp hb' with rfl | hb'
              · intro q hq
                exact hbid b (by simp) q (hrem_sub q hq)
              · rcases List.mem_cons.mp hb' with rfl | hb'
                · intro q hq
                  rcases List.mem_append.mp hq with hq | hq
                  · exact hbid nb (by simp) q hq
                  · rcases List.mem_singleton.mp hq with rfl
                    simp [bumped, hb0, hjoin]
                · exact hbid b' (by simp [hb'])
            · exact ⟨_, _, rfl, b, _, rfl, le_refl _⟩
        · -- splice a fresh bucket with id b.id + 1 before nb
          have hlt : b.id + 1 < nb.id := by
            simp only [List.map_cons, List.chain'_cons] at hasc
            omega
          by_cases hre : (b.entries.filter (fun q => q.payloadCID ≠ r0.payloadCID)).isEmpty
          · have hrem0 : b.entries.filter (fun q => q.payloadCID ≠ r0.payloadCID) = [] :=
              List.isEmpty_iff.mp hre
            rw [hrem0] at hpermb
            refine ⟨⟨b.id + 1, [bumped r0]⟩ :: nb :: rest',
              nb.entries ++ blistRecs rest', ?_, ?_, ?_, ?_, ?_, ?_, ?_⟩
            · simp only [bumpWalk, hf, if_pos, hjoin, if_false, hrem0, List.isEmpty_nil,
                if_true, hr1, List.nil_append]
            · rw [blistRecs_cons, blistRecs_cons]
              exact List.Perm.append_right _ hpermb
            · rw [blistRecs_cons, blistRecs_cons]
              exact List.Perm.refl _
            · simp only [List.map_cons, List.chain'_cons] at hasc ⊢
              exact ⟨hlt, hasc.2⟩
            · intro b' hb'
              rcases List.mem_cons.mp hb' with rfl | hb'
              · simp
              · exact hne b' (by simp [hb'])
            · intro b' hb'
              rcases List.mem_cons.mp hb' with rfl | hb'
              · intro q hq
                rcases List.mem_singleton.mp hq with rfl
                simp [bumped, hb0]
              · exact hbid b' (by simp [hb'])
            · exact ⟨_, _, rfl, b, _, rfl, by show b.id ≤ b.id + 1; omega⟩
          · refine ⟨{ b with entries := b.entries.filter (fun q => q.payloadCID ≠ r0.payloadCID) } ::
              ⟨b.id + 1, [bumped r0]⟩ :: nb :: rest',
              b.entries.filter (fun q => q.payloadCID ≠ r0.payloadCID) ++
                (nb.entries ++ blistRecs rest'), ?_, ?_, ?_, ?_, ?_, ?_, ?_⟩
            · simp only [bumpWalk, hf, if_pos, hjoin, if_false, hre, Bool.false_eq_true, hr1]
              rfl
            · rw [blistRecs_cons, blistRecs_cons]
              exact List.Perm.append_right _ hpermb
            · rw [blistRecs_cons, blistRecs_cons, blistRecs_cons]
              exact List.perm_middle
            · simp only [List.map_cons, List.chain'_cons] at hasc ⊢
              refine ⟨by omega, hlt, hasc.2⟩
            · intro b' hb'
              rcases List.mem_cons.mp hb' with rfl | hb'
              · simpa using List.isEmpty_iff.not.mp hre
              · rcases List.mem_cons.mp hb' with rfl | hb'
                · simp
                · exact hne b' (by simp [hb'])
            · intro b' hb'
              rcases List.mem_cons.mp hb' with rfl | hb'
              · intro q hq
                exact hbid b (by simp) q (hrem_sub q hq)
              · rcases List.mem_cons.mp hb' with rfl | hb'
                · intro q hq
                  rcases List.mem_singleton.mp hq with rfl
                  simp [bumped, hb0]
                · exact hbid b' (by simp [hb'])
            · exact ⟨_, _, rfl, b, _, rfl, le_refl _⟩
    · -- r0 lives further down: recurse
      have hr0rest : r0 ∈ blistRecs rest := by
        rcases List.mem_append.mp hmem with h1 | h1
        · exfalso
          have hc : b.entries.any (fun q => q.payloadCID = r0.payloadCID) = true :=
            List.any_eq_true.mpr ⟨r0, h1, by simp⟩
          exact hf hc
        · exact h1
      have hrest_ne : rest ≠ [] := by
        intro hc
        rw [hc] at hr0rest
        simp [blistRecs] at hr0rest
      rcases ih ((List.chain'_cons'.mp (by simpa using hasc)).2)
          (fun b' hb' => hne b' (by simp [hb']))
          (fun b' hb' => hbid b' (by simp [hb']))
          hsplit.2.1 hr0rest with
        ⟨bl'', rem, heq, hp1, hp2, hasc'', hne'', hbid'', hhead⟩
      rcases hhead with ⟨hb'', t'', hbl'', hbr, tr, hrest_eq, hle⟩
      refine ⟨b :: bl'', b.entries ++ rem, ?_, ?_, ?_, ?_, ?_, ?_, ?_⟩
      · simp only [bumpWalk, hf, Bool.false_eq_true, if_false, heq]
        rfl
      · rw [blistRecs_cons]
        exact (List.Perm.append_left _ hp1).trans List.perm_middle
      · rw [blistRecs_cons]
        exact (List.Perm.append_left _ hp2).trans List.perm_middle
      · rw [List.map_cons, hbl'', List.map_cons]
        refine List.chain'_cons'.mpr ⟨?_, ?_⟩
        · intro h hh
          simp only [List.head?_cons, Option.mem_def, Option.some.injEq] at hh
          subst hh
          have hblt : b.id < hbr.id := by
            rw [hrest_eq] at hasc
            simp only [List.map_cons, List.chain'_cons] at hasc
            exact hasc.1
          omega
        · rw [← List.map_cons, ← hbl'']
          exact hasc''
      · intro b' hb'
        rcases List.mem_cons.mp hb' with rfl | hb'
        · exact hne b' (by simp)
        · exact hne'' b' hb'
      · intro b' hb'
        rcases List.mem_cons.mp hb' with rfl | hb'
        · exact hbid b' (by simp)
        · exact hbid'' b' hb'
      · exact ⟨b, bl'', rfl, b, rest, rfl, le_refl _⟩

theorem bumpWalk_none (r : DataRef) (bl : List Bucket)
    (hfresh : r.payloadCID ∉ blistKeys bl) : bumpWalk r bl = none := by
  induction bl with
  | nil => rfl
  | cons b rest ih =>
    rw [blistKeys_cons] at hfresh
    simp only [List.mem_append, not_or] at hfresh
    have hf : b.entries.any (fun q => q.payloadCID = r.payloadCID) = false := by
      rw [List.any_eq_false]
      intro q hq
      simp only [decide_eq_true_eq]
      intro hc
      exact hfresh.1 (hc ▸ List.mem_map_of_mem DataRef.payloadCID hq)
    simp [bumpWalk, hf, ih hfresh.2]

/-- Specification of `increment` on a record whose key is in no bucket (the
nil back-pointer path): the record joins the back bucket (or a fresh bucket
with id 1), keeps its frequency, and the list stays well-formed. -/
theorem increment_new (r : DataRef) (bl : List Bucket)
    (hasc : (bl.map Bucket.id).Chain' (· < ·))
    (hne : ∀ b ∈ bl, b.entries ≠ [])
    (hbid : ∀ b ∈ bl, ∀ q ∈ b.entries, q.bucketID = b.id)
    (hfresh : r.payloadCID ∉ blistKeys bl) :
    ∃ bid bl',
      increment r bl = ({ r with bucketID := bid }, bl') ∧
      (blistRecs bl').Perm ({ r with bucketID := bid } :: blistRecs bl) ∧
      ((bl'.map Bucket.id).Chain' (· < ·)) ∧
      (∀ b ∈ bl', b.entries ≠ []) ∧
      (∀ b ∈ bl', ∀ q ∈ b.entries, q.bucketID = b.id) := by
  have hw := bumpWalk_none r bl hfresh
  cases bl with
  | nil =>
    refine ⟨1, [⟨1, [{ r with bucketID := 1 }]⟩], rfl, List.Perm.refl _, by simp, ?_, ?_⟩
    · intro b' hb'
      rcases List.mem_singleton.mp hb' with rfl
      simp
    · intro b' hb'
      rcases List.mem_singleton.mp hb' with rfl
      intro q hq
      rcases List.mem_singleton.mp hq with rfl
      simp
  | cons b rest =>
    have hcons : (b :: rest) ≠ [] := by simp
    have hlast : (b :: rest).getLast? = some ((b :: rest).getLast hcons) :=
      List.getLast?_eq_getLast _ hcons
    refine ⟨((b :: rest).getLast hcons).id,
      pushBackJoin { r with bucketID := ((b :: rest).getLast hcons).id } (b :: rest),
      ?_, ?_, ?_, ?_, ?_⟩
    · simp [increment, hw, hlast]
    · rw [pushBackJoin_recs _ _ hcons]
      exact List.perm_append_comm
    · rw [pushBackJoin_ids _ _ hcons]
      exact hasc
    · intro b' hb'
      rcases pushBackJoin_mem _ _ hcons b' hb' with h | ⟨b₀, hb₀, rfl⟩
      · exact hne b' h
      · simp
    · intro b' hb'
      rcases pushBackJoin_mem _ _ hcons b' hb' with h | ⟨b₀, hb₀, rfl⟩
      · exact hbid b' h
      · have hb₀eq : b₀ = (b :: rest).getLast hcons := by
          rw [hlast] at hb₀
          exact (Option.some.injEq _ _).mp hb₀.symm
        subst hb₀eq
        intro q hq
        rcases List.mem_append.mp hq with hq | hq
        · exact hbid _ (List.getLast_mem hcons) q hq
        · rcases List.mem_singleton.mp hq with rfl
          rfl

/-! ## Eviction-loop characterization (no deletion failures) -/

theorem evCount_reach (t : Nat) (es : List DataRef) (h : t ≤ recSum es) :
    t ≤ recSum (es.take (evCount t es)) := by
  induction es generalizing t with
  | nil => simpa [recSum] using h
  | cons r rs ih =>
    simp only [evCount]
    by_cases h1 : t ≤ r.payloadSize
    · simp [recSum, h1]
    · simp only [h1, if_neg, not_false_iff, List.take_succ_cons, recSum, List.map_cons,
        List.sum_cons]
      have h2 : t - r.payloadSize ≤ recSum rs := by
        simp only [recSum, List.map_cons, List.sum_cons] at h
        simp only [recSum]
        omega
      have h3 := ih (t - r.payloadSize) h2
      simp only [recSum] at h3
      omega

theorem evCount_full (t : Nat) (es : List DataRef)
    (h : ¬ t ≤ recSum (es.take (evCount t es))) :
    evCount t es = es.length := by
  induction es generalizing t with
  | nil => simp [evCount]
  | cons r rs ih =>
    by_cases h1 : t ≤ r.payloadSize
    · exfalso
      apply h
      simp only [evCount, h1, if_pos]
      simpa [recSum] using h1
    · have h2 : ¬ (t - r.payloadSize) ≤ recSum (rs.take (evCount (t - r.payloadSize) rs)) := by
        intro hc
        apply h
        simp only [evCount, h1, if_neg, not_false_iff, List.take_succ_cons, recSum,
          List.map_cons, List.sum_cons]
        simp only [recSum] at hc
        omega
      simp only [evCount, h1, if_neg, not_false_iff, List.length_cons]
      rw [ih (t - r.payloadSize) h2]

theorem evictEntries_spec (t : Nat) (es : List DataRef) :
    ∀ (refs : List (Key × DataRef)) (size ev : Nat), ev < t →
      evictEntries [] t es refs size ev =
        ⟨es.drop (evCount (t - ev) es),
         delKeys (es.take (evCount (t - ev) es)) refs,
         size - recSum (es.take (evCount (t - ev) es)),
         ev + recSum (es.take (evCount (t - ev) es)),
         decide (t ≤ ev + recSum (es.take (evCount (t - ev) es)))⟩ := by
  induction es with
  | nil =>
    intro refs size ev hev
    simp [evictEntries, evCount, recSum, delKeys, Nat.not_le.mpr hev]
  | cons r rs ih =>
    intro refs size ev hev
    simp only [evictEntries, List.not_mem_nil, if_false]
    by_cases h1 : t ≤ ev + r.payloadSize
    · have hc : evCount (t - ev) (r :: rs) = 1 := by
        have : t - ev ≤ r.payloadSize := by omega
        simp [evCount, this]
      rw [hc]
      simp only [List.drop_succ_cons, List.drop_zero, List.take_succ_cons, List.take_zero,
        delKeys, recSum, List.map_cons, List.map_nil, List.sum_cons, List.sum_nil, h1, if_pos]
      refine congrArg (EvRes.mk rs (mapDel refs r.payloadCID) _ _) ?_
      simp [h1]
    · have hle : ¬ t - ev ≤ r.payloadSize := by omega
      have hc : evCount (t - ev) (r :: rs) =
          evCount (t - (ev + r.payloadSize)) rs + 1 := by
        have harith : t - ev - r.payloadSize = t - (ev + r.payloadSize) := by omega
        simp [evCount, hle, harith]
      rw [hc]
      have hev' : ev + r.payloadSize < t := by omega
      simp only [h1, if_neg, not_false_iff]
      rw [ih (mapDel refs r.payloadCID) (size - r.payloadSize) (ev + r.payloadSize) hev']
      simp only [List.drop_succ_cons, List.take_succ_cons, delKeys, recSum, List.map_cons,
        List.sum_cons]
      simp only [EvRes.mk.injEq]
      refine ⟨by trivial, by trivial, by omega, by omega, ?_⟩
      simp only [decide_eq_decide]
      omega

theorem evictEntries_nofail_nohit (t : Nat) (es : List DataRef) :
    ∀ (refs : List (Key × DataRef)) (size ev : Nat),
      (evictEntries [] t es refs size ev).hit = false →
      (evictEntries [] t es refs size ev).kept = [] := by
  induction es with
  | nil => intro refs size ev _; rfl
  | cons r rs ih =>
    intro refs size ev hh
    simp only [evictEntries, List.not_mem_nil, if_false] at hh ⊢
    by_cases h1 : t ≤ ev + r.payloadSize
    · simp [h1] at hh
    · simp only [h1, if_neg, not_false_iff] at hh ⊢
      exact ih _ _ _ hh

theorem evictGo_front (t : Nat) (b : Bucket) (rest : List Bucket)
    (refs : List (Key × DataRef)) (size ev : Nat) :
    evictGo [] t (b :: rest) refs size ev =
      ⟨(if (evictEntries [] t b.entries refs size ev).kept.isEmpty then rest
        else { b with entries := (evictEntries [] t b.entries refs size ev).kept } :: rest),
        (evictEntries [] t b.entries refs size ev).refs,
        (evictEntries [] t b.entries refs size ev).size,
        (evictEntries [] t b.entries refs size ev).evicted⟩ := by
  by_cases hhit : (evictEntries [] t b.entries refs size ev).hit
  · simp [evictGo, hhit]
  · have hkept := evictEntries_nofail_nohit t b.entries refs size ev
      (Bool.not_eq_true _ ▸ eq_false_of_ne_true hhit)
    simp [evictGo, hhit, hkept]

/-! ## Nodup-aware map lemmas -/

theorem mapGet_of_mem_nodup (m : List (Key × DataRef)) (p : Key × DataRef)
    (hnd : (m.map Prod.fst).Nodup) (h : p ∈ m) : mapGet m p.1 = some p.2 := by
  induction m with
  | nil => simp at h
  | cons q rest ih =>
    simp only [List.map_cons, List.nodup_cons] at hnd
    rcases List.mem_cons.mp h with rfl | h1
    · simp [mapGet]
    · have hq : q.1 ≠ p.1 := by
        intro hc
        exact hnd.1 (hc ▸ List.mem_map_of_mem Prod.fst h1)
      simp only [mapGet, hq, if_neg, not_false_iff]
      exact ih hnd.2 h1

theorem mem_mapSet_nodup (m : List (Key × DataRef)) (k : Key) (v : DataRef)
    (p : Key × DataRef) (hnd : (m.map Prod.fst).Nodup)
    (h : p ∈ mapSet m k v) : p = (k, v) ∨ (p ∈ m ∧ p.1 ≠ k) := by
  induction m with
  | nil =>
    rcases List.mem_singleton.mp (by simpa [mapSet] using h) with rfl
    exact Or.inl rfl
  | cons q rest ih =>
    simp only [List.map_cons, List.nodup_cons] at hnd
    by_cases hq : q.1 = k
    · rcases List.mem_cons.mp (by simpa [mapSet, hq] using h) with rfl | h1
      · exact Or.inl rfl
      · refine Or.inr ⟨List.mem_cons_of_mem _ h1, ?_⟩
        intro hc
        subst hq
        exact hnd.1 (hc ▸ List.mem_map_of_mem Prod.fst h1)
    · rcases List.mem_cons.mp (by simpa [mapSet, hq] using h) with rfl | h1
      · exact Or.inr ⟨by simp, hq⟩
      · rcases ih hnd.2 h1 with h2 | ⟨h2, h3⟩
        · exact Or.inl h2
        · exact Or.inr ⟨List.mem_cons_of_mem _ h2, h3⟩

theorem mem_mapDel_nodup (m : List (Key × DataRef)) (k : Key) (p : Key × DataRef)
    (hnd : (m.map Prod.fst).Nodup) (h : p ∈ mapDel m k) : p ∈ m ∧ p.1 ≠ k := by
  refine ⟨mem_mapDel _ _ _ h, ?_⟩
  intro hc
  have h1 : p.1 ∈ (mapDel m k).map Prod.fst := List.mem_map_of_mem Prod.fst h
  rw [mapDel_keys, hc] at h1
  exact (List.Nodup.not_mem_erase hnd) h1

/-! ## `delKeys` lemmas -/

theorem delKeys_sublist (rs : List DataRef) :
    ∀ m : List (Key × DataRef), (delKeys rs m).Sublist m := by
  induction rs with
  | nil => intro m; exact List.Sublist.refl m
  | cons r rest ih =>
    intro m
    exact (ih (mapDel m r.payloadCID)).trans (mapDel_sublist m r.payloadCID)

theorem delKeys_get_none (rs : List DataRef) :
    ∀ (m : List (Key × DataRef)) (k : Key), mapGet m k = none →
      mapGet (delKeys rs m) k = none := by
  induction rs with
  | nil => intro m k h; exact h
  | cons r rest ih =>
    intro m k h
    exact ih _ _ (mapGet_del_none _ _ _ h)

theorem delKeys_get_notin (rs : List DataRef) :
    ∀ (m : List (Key × DataRef)) (k : Key), k ∉ rs.map DataRef.payloadCID →
      mapGet (delKeys rs m) k = mapGet m k := by
  induction rs with
  | nil => intro m k _; rfl
  | cons r rest ih =>
    intro m k hk
    simp only [List.map_cons, List.mem_cons, not_or] at hk
    rw [show delKeys (r :: rest) m = delKeys rest (mapDel m r.payloadCID) from rfl,
      ih _ _ hk.2, mapGet_del_ne _ _ _ hk.1]

theorem delKeys_keys_nodup (rs : List DataRef) (m : List (Key × DataRef))
    (h : (m.map Prod.fst).Nodup) : ((delKeys rs m).map Prod.fst).Nodup :=
  List.Nodup.sublist ((delKeys_sublist rs m).map _) h

theorem delKeys_get_deleted (rs : List DataRef) :
    ∀ m : List (Key × DataRef), (m.map Prod.fst).Nodup →
      ∀ r ∈ rs, mapGet (delKeys rs m) r.payloadCID = none := by
  induction rs with
  | nil => simp
  | cons q rest ih =>
    intro m hnd r hr
    rcases List.mem_cons.mp hr with rfl | hr
    · show mapGet (delKeys rest (mapDel m r.payloadCID)) r.payloadCID = none
      apply delKeys_get_none
      rw [mapGet_eq_none_iff, mapDel_keys]
      exact List.Nodup.not_mem_erase hnd
    · refine ih (mapDel m q.payloadCID) ?_ r hr
      rw [mapDel_keys]
      exact List.Nodup.erase _ hnd

theorem delKeys_sumSizes (rs : List DataRef) :
    ∀ m : List (Key × DataRef),
      (∀ r ∈ rs, mapGet m r.payloadCID = some r) →
      (rs.map DataRef.payloadCID).Nodup →
      sumSizes (delKeys rs m) + recSum rs = sumSizes m := by
  induction rs with
  | nil => intro m _ _; simp [delKeys, recSum]
  | cons r rest ih =>
    intro m hall hnd
    simp only [List.map_cons, List.nodup_cons] at hnd
    have h1 : ∀ q ∈ rest, mapGet (mapDel m r.payloadCID) q.payloadCID = some q := by
      intro q hq
      have hne : q.payloadCID ≠ r.payloadCID := by
        intro hc
        exact hnd.1 (hc ▸ List.mem_map_of_mem DataRef.payloadCID hq)
      rw [mapGet_del_ne _ _ _ hne]
      exact hall q (List.mem_cons_of_mem _ hq)
    have h2 := ih (mapDel m r.payloadCID) h1 hnd.2
    have h3 := sumSizes_del_add m r.payloadCID r (hall r (by simp))
    show sumSizes (delKeys rest (mapDel m r.payloadCID)) + recSum (r :: rest) = sumSizes m
    simp only [recSum, List.map_cons, List.sum_cons] at *
    omega

/-! ## Finishing step of `SetRef` (increment of the fresh record + map writes) -/

theorem setFinish_inv (bl2 : List Bucket) (refs2 : List (Key × DataRef)) (r : DataRef)
    (hasc2 : (bl2.map Bucket.id).Chain' (· < ·))
    (hne2 : ∀ b ∈ bl2, b.entries ≠ [])
    (hbid2 : ∀ b ∈ bl2, ∀ q ∈ b.entries, q.bucketID = b.id)
    (hagree2 : ∀ q ∈ blistRecs bl2, mapGet refs2 q.payloadCID = some q)
    (hcomplete2 : ∀ p ∈ refs2, p.1 ≠ r.payloadCID → p.2 ∈ blistRecs bl2)
    (hkeyed2 : ∀ p ∈ refs2, p.2.payloadCID = p.1)
    (hknd2 : (blistKeys bl2).Nodup)
    (hrnd2 : (refs2.map Prod.fst).Nodup)
    (hrk : mapGet refs2 r.payloadCID = some r)
    (hfreshbl : r.payloadCID ∉ blistKeys bl2) :
    (((increment r bl2).2.map Bucket.id).Chain' (· < ·)) ∧
    (∀ b ∈ (increment r bl2).2, b.entries ≠ []) ∧
    (∀ b ∈ (increment r bl2).2, ∀ q ∈ b.entries, q.bucketID = b.id) ∧
    (∀ q ∈ blistRecs (increment r bl2).2,
      mapGet (mapSet refs2 r.payloadCID (increment r bl2).1) q.payloadCID = some q) ∧
    (∀ p ∈ mapSet refs2 r.payloadCID (increment r bl2).1,
      p.2 ∈ blistRecs (increment r bl2).2) ∧
    (∀ p ∈ mapSet refs2 r.payloadCID (increment r bl2).1, p.2.payloadCID = p.1) ∧
    (blistKeys (increment r bl2).2).Nodup ∧
    ((mapSet refs2 r.payloadCID (increment r bl2).1).map Prod.fst).Nodup ∧
    sumSizes (mapSet refs2 r.payloadCID (increment r bl2).1) = sumSizes refs2 ∧
    (∃ bid, (increment r bl2).1 = { r with bucketID := bid }) := by
  rcases increment_new r bl2 hasc2 hne2 hbid2 hfreshbl with
    ⟨bid, bl', heq, hperm, hasc', hne', hbid'⟩
  rw [heq]
  dsimp only
  have hkeys : (blistKeys bl').Perm (r.payloadCID :: blistKeys bl2) := by
    have := hperm.map DataRef.payloadCID
    simpa [blistKeys] using this
  refine ⟨hasc', hne', hbid', ?_, ?_, ?_, ?_, ?_, ?_, ⟨bid, rfl⟩⟩
  · intro q hq
    rcases List.mem_cons.mp (hperm.mem_iff.mp hq) with rfl | hq2
    · exact mapGet_set_self _ _ _
    · have hne : q.payloadCID ≠ r.payloadCID := by
        intro hc
        exact hfreshbl (hc ▸ List.mem_map_of_mem DataRef.payloadCID hq2)
      rw [mapGet_set_ne _ _ _ _ hne]
      exact hagree2 q hq2
  · intro p hp
    rcases mem_mapSet_nodup _ _ _ _ hrnd2 hp with rfl | ⟨hp2, hp3⟩
    · exact hperm.mem_iff.mpr (by simp)
    · exact hperm.mem_iff.mpr (List.mem_cons_of_mem _ (hcomplete2 p hp2 hp3))
  · intro p hp
    rcases mem_mapSet_nodup _ _ _ _ hrnd2 hp with rfl | ⟨hp2, _⟩
    · rfl
    · exact hkeyed2 p hp2
  · exact (hkeys.nodup_iff).mpr (List.nodup_cons.mpr ⟨hfreshbl, hknd2⟩)
  · rw [mapSet_keys_present _ _ _ (by simp [hrk])]
    exact hrnd2
  · exact sumSizes_set_samesize _ _ _ r hrk rfl

/-! ## `remBlist` specification -/

theorem remBlist_ids_sublist (k : Key) (bl : List Bucket) :
    ((remBlist k bl).map Bucket.id).Sublist (bl.map Bucket.id) := by
  induction bl with
  | nil => simp [remBlist]
  | cons b rest ih =>
    by_cases hf : b.entries.any (fun q => q.payloadCID = k)
    · by_cases hre : (b.entries.filter (fun q => q.payloadCID ≠ k)).isEmpty
      · simp only [remBlist, hf, if_pos, hre, if_true, List.map_cons]
        exact (List.Sublist.refl _).cons _
      · simp only [remBlist, hf, if_pos, hre, if_false, Bool.false_eq_true, List.map_cons]
        exact (List.Sublist.refl _).cons₂ _
    · simp only [remBlist, hf, Bool.false_eq_true, if_false, List.map_cons]
      exact ih.cons₂ _

theorem remBlist_asc (k : Key) (bl : List Bucket)
    (hasc : (bl.map Bucket.id).Chain' (· < ·)) :
    ((remBlist k bl).map Bucket.id).Chain' (· < ·) := by
  rw [List.chain'_iff_pairwise] at hasc ⊢
  exact List.Pairwise.sublist (remBlist_ids_sublist k bl) hasc

theorem remBlist_spec (r0 : DataRef) (bl : List Bucket)
    (hne : ∀ b ∈ bl, b.entries ≠ [])
    (hbid : ∀ b ∈ bl, ∀ q ∈ b.entries, q.bucketID = b.id)
    (hknd : (blistKeys bl).Nodup)
    (hmem : r0 ∈ blistRecs bl) :
    ∃ rem,
      (blistRecs bl).Perm (r0 :: rem) ∧
      (blistRecs (remBlist r0.payloadCID bl)).Perm rem ∧
      (∀ b ∈ remBlist r0.payloadCID bl, b.entries ≠ []) ∧
      (∀ b ∈ remBlist r0.payloadCID bl, ∀ q ∈ b.entries, q.bucketID = b.id) := by
  induction bl with
  | nil => simp [blistRecs] at hmem
  | cons b rest ih =>
    rw [blistRecs_cons] at hmem
    have hsplit := List.nodup_append.mp (by rw [blistKeys_cons] at hknd; exact hknd)
    by_cases hf : b.entries.any (fun q => q.payloadCID = r0.payloadCID)
    · have hr0b : r0 ∈ b.entries := by
        rcases List.mem_append.mp hmem with h1 | h1
        · exact h1
        · exfalso
          rcases List.any_eq_true.mp hf with ⟨q, hq, hqk⟩
          have hqk' : q.payloadCID = r0.payloadCID := of_decide_eq_true hqk
          exact hsplit.2.2 (List.mem_map_of_mem _ hq)
            (hqk' ▸ List.mem_map_of_mem _ h1)
      have hpermb := perm_cons_filterKey b.entries r0 hr0b hsplit.1
      refine ⟨b.entries.filter (fun q => q.payloadCID ≠ r0.payloadCID) ++ blistRecs rest,
        ?_, ?_, ?_, ?_⟩
      · rw [blistRecs_cons]
        exact List.Perm.append_right _ hpermb
      · by_cases hre : (b.entries.filter (fun q => q.payloadCID ≠ r0.payloadCID)).isEmpty
        · have hrem0 := List.isEmpty_iff.mp hre
          simp only [remBlist, hf, if_pos, hre, if_true]
          rw [hrem0, List.nil_append]
        · simp only [remBlist, hf, if_pos, hre, if_false, Bool.false_eq_true]
          rw [blistRecs_cons]
      · intro b' hb'
        by_cases hre : (b.entries.filter (fun q => q.payloadCID ≠ r0.payloadCID)).isEmpty
        · simp only [remBlist, hf, if_pos, hre, if_true] at hb'
          exact hne b' (by simp [hb'])
        · simp only [remBlist, hf, if_pos, hre, if_false, Bool.false_eq_true] at hb'
          rcases List.mem_cons.mp hb' with rfl | hb'
          · simpa using List.isEmpty_iff.not.mp hre
          · exact hne b' (by simp [hb'])
      · intro b' hb'
        by_cases hre : (b.entries.filter (fun q => q.payloadCID ≠ r0.payloadCID)).isEmpty
        · simp only [remBlist, hf, if_pos, hre, if_true] at hb'
          exact hbid b' (by simp [hb'])
        · simp only [remBlist, hf, if_pos, hre, if_false, Bool.false_eq_true] at hb'
          rcases List.mem_cons.mp hb' with rfl | hb'
          · intro q hq
            exact hbid b (by simp) q (List.mem_filter.mp hq).1
          · exact hbid b' (by simp [hb'])
    · have hr0rest : r0 ∈ blistRecs rest := by
        rcases List.mem_append.mp hmem with h1 | h1
        · exfalso
          exact hf (List.any_eq_true.mpr ⟨r0, h1, by simp⟩)
        · exact h1
      rcases ih (fun b' hb' => hne b' (by simp [hb']))
          (fun b' hb' => hbid b' (by simp [hb']))
          hsplit.2.1 hr0rest with ⟨rem, hp1, hp2, hne', hbid'⟩
      refine ⟨b.entries ++ rem, ?_, ?_, ?_, ?_⟩
      · rw [blistRecs_cons]
        exact (List.Perm.append_left _ hp1).trans List.perm_middle
      · simp only [remBlist, hf, Bool.false_eq_true, if_false]
        rw [blistRecs_cons]
        exact List.Perm.append_left _ hp2
      · intro b' hb'
        simp only [remBlist, hf, Bool.false_eq_true, if_false] at hb'
        rcases List.mem_cons.mp hb' with rfl | hb'
        · exact hne b' (by simp)
        · exact hne' b' hb'
      · intro b' hb'
        simp only [remBlist, hf, Bool.false_eq_true, if_false] at hb'
        rcases List.mem_cons.mp hb' with rfl | hb'
        · exact hbid b' (by simp)
        · exact hbid' b' hb'

/-! ## Operation-level invariant preservation -/

theorem GetRef_inv (idx : Index) (k : Key) (hs : SInv idx) :
    SInv (idx.GetRef k).2 ∧
    ((idx.GetRef k).2).size = idx.size ∧
    sumSizes ((idx.GetRef k).2).refs = sumSizes idx.refs ∧
    (∀ q, mapGet idx.refs k = some q →
      mapGet ((idx.GetRef k).2).refs k = some (bumped q) ∧
      mapGet ((idx.GetRef k).2).root k = some (bumped q)) ∧
    (∀ k', k' ≠ k → mapGet ((idx.GetRef k).2).refs k' = mapGet idx.refs k') ∧
    ((idx.GetRef k).2).msFails = idx.msFails ∧
    ((idx.GetRef k).2).ub = idx.ub ∧ ((idx.GetRef k).2).lb = idx.lb := by
  obtain ⟨hasc, hne, hbid, hagree, hcomplete, hkeyed, hknd, hrnd⟩ := hs
  cases hq : mapGet idx.refs k with
  | none =>
    have hstep : (idx.GetRef k).2 = idx := by simp [Index.GetRef, hq]
    rw [hstep]
    exact ⟨⟨hasc, hne, hbid, hagree, hcomplete, hkeyed, hknd, hrnd⟩, rfl, rfl,
      fun q hq' => absurd hq' (by simp [hq]), fun k' _ => rfl, rfl, rfl, rfl⟩
  | some q0 =>
    have hq0mem : (k, q0) ∈ idx.refs := mapGet_mem _ _ _ hq
    have hq0k : q0.payloadCID = k := hkeyed (k, q0) hq0mem
    have hq0recs : q0 ∈ blistRecs idx.blist := hcomplete (k, q0) hq0mem
    rcases bumpWalk_spec q0 idx.blist hasc hne hbid hknd hq0recs with
      ⟨bl', rem, heq, hp1, hp2, hasc', hne', hbid', _⟩
    have hinc : increment q0 idx.blist = (bumped q0, bl') := by
      simp [increment, heq]
    have hstep : (idx.GetRef k).2 =
        { idx with
            blist := bl'
            refs := mapSet idx.refs k (bumped q0)
            root := mapSet idx.root k (bumped q0) } := by
      simp [Index.GetRef, hq, hinc]
    rw [hstep]
    have hkeys1 : (blistKeys idx.blist).Perm
        (q0.payloadCID :: rem.map DataRef.payloadCID) := by
      simpa [blistKeys] using hp1.map DataRef.payloadCID
    have hremnd : q0.payloadCID ∉ rem.map DataRef.payloadCID ∧
        (rem.map DataRef.payloadCID).Nodup := by
      have hh := (hkeys1.nodup_iff).mp hknd
      simpa using hh
    have hkeys2 : (blistKeys bl').Perm
        (q0.payloadCID :: rem.map DataRef.payloadCID) := by
      simpa [blistKeys] using hp2.map DataRef.payloadCID
    refine ⟨⟨hasc', hne', hbid', ?_, ?_, ?_, ?_, ?_⟩, rfl, ?_, ?_, ?_, rfl, rfl, rfl⟩
    · intro q hq'
      rcases List.mem_cons.mp (hp2.mem_iff.mp hq') with rfl | hq2
      · show mapGet (mapSet idx.refs k (bumped q0)) q0.payloadCID = some (bumped q0)
        rw [hq0k]
        exact mapGet_set_self _ _ _
      · have hqbl : q ∈ blistRecs idx.blist :=
          hp1.mem_iff.mpr (List.mem_cons_of_mem _ hq2)
        have hqk : q.payloadCID ≠ k := by
          intro hc
          have hm := List.mem_map_of_mem DataRef.payloadCID hq2
          rw [hc, ← hq0k] at hm
          exact hremnd.1 hm
        rw [mapGet_set_ne _ _ _ _ hqk]
        exact hagree q hqbl
    · intro p hp
      rcases mem_mapSet_nodup _ _ _ _ hrnd hp with rfl | ⟨hpm, hpk⟩
      · exact hp2.mem_iff.mpr (by simp)
      · have hbl := hcomplete p hpm
        rcases List.mem_cons.mp (hp1.mem_iff.mp hbl) with h4 | h4
        · exfalso
          apply hpk
          rw [← hkeyed p hpm, h4, hq0k]
        · exact hp2.mem_iff.mpr (List.mem_cons_of_mem _ h4)
    · intro p hp
      rcases mem_mapSet_nodup _ _ _ _ hrnd hp with rfl | ⟨hpm, _⟩
      · exact hq0k
      · exact hkeyed p hpm
    · exact (hkeys2.nodup_iff).mpr (List.nodup_cons.mpr ⟨hremnd.1, hremnd.2⟩)
    · rw [mapSet_keys_present _ _ _ (by simp [hq])]
      exact hrnd
    · exact sumSizes_set_samesize _ _ _ q0 hq rfl
    · intro q hq'
      have hqq : q = q0 := ((Option.some.injEq _ _).mp hq').symm
      subst hqq
      exact ⟨mapGet_set_self _ _ _, mapGet_set_self _ _ _⟩
    · intro k' hk'
      exact mapGet_set_ne _ _ _ _ hk'

theorem SetRef_inv (idx : Index) (r : DataRef) (hs : SInv idx)
    (hmf : idx.msFails = []) (hul : idx.lb ≤ idx.ub)
    (hfresh : mapGet idx.refs r.payloadCID = none) :
    SInv (idx.SetRef r) ∧
    (sizeInv idx → sizeInv (idx.SetRef r)) ∧
    (∃ bid, mapGet (idx.SetRef r).refs r.payloadCID = some { r with bucketID := bid } ∧
      mapGet (idx.SetRef r).root r.payloadCID = some { r with bucketID := bid }) ∧
    ((idx.SetRef r).msFails = idx.msFails) ∧
    ((idx.SetRef r).ub = idx.ub) ∧ ((idx.SetRef r).lb = idx.lb) := by
  obtain ⟨hasc, hne, hbid, hagree, hcomplete, hkeyed, hknd, hrnd⟩ := hs
  have hknotin : r.payloadCID ∉ idx.refs.map Prod.fst := (mapGet_eq_none_iff _ _).mp hfresh
  have hkbl : r.payloadCID ∉ blistKeys idx.blist := by
    intro hc
    rcases List.mem_map.mp hc with ⟨q, hq, hqk⟩
    have hcontra := hagree q hq
    rw [hqk, hfresh] at hcontra
    exact Option.noConfusion hcontra
  have hrget1 : mapGet (mapSet idx.refs r.payloadCID r) r.payloadCID = some r :=
    mapGet_set_self _ _ _
  have hrnd1 : ((mapSet idx.refs r.payloadCID r).map Prod.fst).Nodup := by
    rw [mapSet_fresh _ _ _ hfresh, List.map_append]
    refine List.Nodup.append hrnd (by simp) ?_
    intro a ha hb
    rcases List.mem_singleton.mp (by simpa using hb) with rfl
    exact hknotin ha
  have hagree1 : ∀ q ∈ blistRecs idx.blist,
      mapGet (mapSet idx.refs r.payloadCID r) q.payloadCID = some q := by
    intro q hq
    have hne2 : q.payloadCID ≠ r.payloadCID := by
      intro hc
      exact hkbl (hc ▸ List.mem_map_of_mem DataRef.payloadCID hq)
    rw [mapGet_set_ne _ _ _ _ hne2]
    exact hagree q hq
  have hcomplete1 : ∀ p ∈ mapSet idx.refs r.payloadCID r, p.1 ≠ r.payloadCID →
      p.2 ∈ blistRecs idx.blist := by
    intro p hp hpk
    rcases mem_mapSet_nodup _ _ _ _ hrnd hp with rfl | ⟨hpm, _⟩
    · exact absurd rfl hpk
    · exact hcomplete p hpm
  have hkeyed1 : ∀ p ∈ mapSet idx.refs r.payloadCID r, p.2.payloadCID = p.1 := by
    intro p hp
    rcases mem_mapSet_nodup _ _ _ _ hrnd hp with rfl | ⟨hpm, _⟩
    · rfl
    · exact hkeyed p hpm
  have hsum1 : sumSizes (mapSet idx.refs r.payloadCID r) =
      sumSizes idx.refs + r.payloadSize := sumSizes_set_fresh _ _ _ hfresh
  by_cases hcond : 0 < idx.ub ∧ 0 < idx.lb ∧ idx.ub < idx.size + r.payloadSize
  · rcases hbl : idx.blist with _ | ⟨b, rest⟩
    · -- empty bucket list: the eviction walk does nothing
      rw [hbl] at hasc hne hbid hagree hagree1 hcomplete hcomplete1 hknd hkbl
      have hstep : idx.SetRef r =
          { idx with
              size := idx.size + r.payloadSize
              blist := (increment r idx.blist).2
              refs := mapSet (mapSet idx.refs r.payloadCID r) r.payloadCID
                (increment r idx.blist).1
              root := mapSet idx.root r.payloadCID (increment r idx.blist).1 } := by
        simp [Index.SetRef, Index.evict, hcond, hmf, hbl, evictGo]
      rw [hstep, hbl]
      rcases setFinish_inv [] (mapSet idx.refs r.payloadCID r) r (by simp) (by simp)
          (by simp) hagree1 hcomplete1 hkeyed1 hknd hrnd1 hrget1 hkbl with
        ⟨f1, f2, f3, f4, f5, f6, f7, f8, f9, bid, f10⟩
      refine ⟨⟨f1, f2, f3, f4, f5, f6, f7, f8⟩, ?_, ⟨bid, ?_, ?_⟩, rfl, rfl, rfl⟩
      · intro hz
        simp only [sizeInv] at hz ⊢
        show idx.size + r.payloadSize = _
        rw [f9, hsum1, hz]
      · show mapGet (mapSet _ _ (increment r []).1) _ = _
        rw [f10]
        exact mapGet_set_self _ _ _
      · show mapGet (mapSet _ _ (increment r []).1) _ = _
        rw [f10]
        exact mapGet_set_self _ _ _
    · -- the walk evicts a prefix of the front bucket
      rw [hbl] at hasc hne hbid hagree hagree1 hcomplete hcomplete1 hknd hkbl
      have htpos : 0 < idx.size + r.payloadSize - idx.lb := by omega
      have hev := evictEntries_spec (idx.size + r.payloadSize - idx.lb) b.entries
        (mapSet idx.refs r.payloadCID r) (idx.size + r.payloadSize) 0 htpos
      simp only [Nat.sub_zero, Nat.zero_add] at hev
      set n := evCount (idx.size + r.payloadSize - idx.lb) b.entries with hn
      set tk := b.entries.take n with htk
      set dr := b.entries.drop n with hdr
      set bl2 : List Bucket := if dr.isEmpty then rest else { b with entries := dr } :: rest
        with hbl2
      set refs2 := delKeys tk (mapSet idx.refs r.payloadCID r) with hrefs2
      have hstep : idx.SetRef r =
          { idx with
              size := idx.size + r.payloadSize - recSum tk
              blist := (increment r bl2).2
              refs := mapSet refs2 r.payloadCID (increment r bl2).1
              root := mapSet idx.root r.payloadCID (increment r bl2).1 } := by
        simp [Index.SetRef, Index.evict, hcond, hmf, hbl, evictGo_front, hev, hbl2]
      -- key bookkeeping: b.entries splits into the evicted prefix and the kept suffix
      have hsplitkeys : ((tk.map DataRef.payloadCID) ++
          ((dr.map DataRef.payloadCID) ++ blistKeys rest)).Nodup := by
        have hb : (blistKeys (b :: rest)) =
            tk.map DataRef.payloadCID ++ (dr.map DataRef.payloadCID ++ blistKeys rest) := by
          rw [blistKeys_cons]
          rw [show b.entries = tk ++ dr from (List.take_append_drop n b.entries).symm]
          simp [List.map_append]
        rw [← hb]
        exact hknd
      have hnd3 := List.nodup_append.mp hsplitkeys
      have hrecs2 : blistRecs bl2 = dr ++ blistRecs rest := by
        by_cases hdre : dr.isEmpty
        · rw [hbl2, if_pos hdre, List.isEmpty_iff.mp hdre, List.nil_append]
        · rw [hbl2, if_neg hdre, blistRecs_cons]
      have hrecs_sub : ∀ q ∈ blistRecs bl2, q ∈ blistRecs (b :: rest) := by
        intro q hq
        rw [hrecs2] at hq
        rw [blistRecs_cons]
        rcases List.mem_append.mp hq with h1 | h1
        · exact List.mem_append.mpr (Or.inl (List.mem_of_mem_drop h1))
        · exact List.mem_append.mpr (Or.inr h1)
      have hkeys2sub : ∀ a ∈ blistKeys bl2, a ∈ blistKeys (b :: rest) := by
        intro a ha
        rcases List.mem_map.mp ha with ⟨q, hq, rfl⟩
        exact List.mem_map_of_mem _ (hrecs_sub q hq)
      have hasc2 : (bl2.map Bucket.id).Chain' (· < ·) := by
        by_cases hdre : dr.isEmpty
        · rw [hbl2, if_pos hdre]
          exact (List.chain'_cons'.mp (by simpa using hasc)).2
        · rw [hbl2, if_neg hdre]
          simpa using hasc
      have hne2 : ∀ b' ∈ bl2, b'.entries ≠ [] := by
        intro b' hb'
        by_cases hdre : dr.isEmpty
        · rw [hbl2, if_pos hdre] at hb'
          exact hne b' (by simp [hb'])
        · rw [hbl2, if_neg hdre] at hb'
          rcases List.mem_cons.mp hb' with rfl | hb'
          · simpa using List.isEmpty_iff.not.mp hdre
          · exact hne b' (by simp [hb'])
      have hbid2 : ∀ b' ∈ bl2, ∀ q ∈ b'.entries, q.bucketID = b'.id := by
        intro b' hb'
        by_cases hdre : dr.isEmpty
        · rw [hbl2, if_pos hdre] at hb'
          exact hbid b' (by simp [hb'])
        · rw [hbl2, if_neg hdre] at hb'
          rcases List.mem_cons.mp hb' with rfl | hb'
          · intro q hq
            exact hbid b (by simp) q (List.mem_of_mem_drop hq)
          · exact hbid b' (by simp [hb'])
      have htk_sub : ∀ q ∈ tk, q ∈ blistRecs (b :: rest) := by
        intro q hq
        rw [blistRecs_cons]
        exact List.mem_append.mpr (Or.inl (List.mem_of_mem_take hq))
      have hagree2 : ∀ q ∈ blistRecs bl2, mapGet refs2 q.payloadCID = some q := by
        intro q hq
        have hnotk : q.payloadCID ∉ tk.map DataRef.payloadCID := by
          intro hc
          rw [hrecs2] at hq
          rcases List.mem_append.mp hq with h1 | h1
          · exact hnd3.2.2 hc (List.mem_append.mpr
              (Or.inl (List.mem_map_of_mem _ h1)))
          · exact hnd3.2.2 hc (List.mem_append.mpr
              (Or.inr (List.mem_map_of_mem _ h1)))
        rw [hrefs2, delKeys_get_notin _ _ _ hnotk]
        exact hagree1 q (hrecs_sub q hq)
      have hrnd2 : (refs2.map Prod.fst).Nodup := delKeys_keys_nodup _ _ hrnd1
      have hcomplete2 : ∀ p ∈ refs2, p.1 ≠ r.payloadCID → p.2 ∈ blistRecs bl2 := by
        intro p hp hpk
        have hp1 : p ∈ mapSet idx.refs r.payloadCID r :=
          (delKeys_sublist _ _).subset hp
        have hp2 := hcomplete1 p hp1 hpk
        rw [blistRecs_cons] at hp2
        rw [show b.entries = tk ++ dr from (List.take_append_drop n b.entries).symm,
          List.append_assoc] at hp2
        rcases List.mem_append.mp hp2 with h1 | h1
        · exfalso
          have hdel := delKeys_get_deleted tk (mapSet idx.refs r.payloadCID r) hrnd1 p.2 h1
          have hmem2 := mapGet_of_mem_nodup refs2 p hrnd2 hp
          rw [hkeyed1 p hp1] at hdel
          rw [hrefs2] at hmem2
          rw [hmem2] at hdel
          exact Option.noConfusion hdel
        · rw [hrecs2]
          exact h1
      have hkeyed2 : ∀ p ∈ refs2, p.2.payloadCID = p.1 := by
        intro p hp
        exact hkeyed1 p ((delKeys_sublist _ _).subset hp)
      have hknd2 : (blistKeys bl2).Nodup := by
        have hb : blistKeys bl2 = dr.map DataRef.payloadCID ++ blistKeys rest := by
          rw [show blistKeys bl2 = (blistRecs bl2).map DataRef.payloadCID from rfl, hrecs2,
            List.map_append]
          rfl
        rw [hb]
        exact hnd3.2.1
      have hrget2 : mapGet refs2 r.payloadCID = some r := by
        have hnotk : r.payloadCID ∉ tk.map DataRef.payloadCID := by
          intro hc
          rcases List.mem_map.mp hc with ⟨q, hq, hqk⟩
          exact hkbl (hqk ▸ List.mem_map_of_mem _ (htk_sub q hq))
        rw [hrefs2, delKeys_get_notin _ _ _ hnotk]
        exact hrget1
      have hkbl2 : r.payloadCID ∉ blistKeys bl2 := fun hc => hkbl (hkeys2sub _ hc)
      rcases setFinish_inv bl2 refs2 r hasc2 hne2 hbid2 hagree2 hcomplete2 hkeyed2
          hknd2 hrnd2 hrget2 hkbl2 with ⟨f1, f2, f3, f4, f5, f6, f7, f8, f9, bid, f10⟩
      rw [hstep]
      refine ⟨⟨f1, f2, f3, f4, f5, f6, f7, f8⟩, ?_, ⟨bid, ?_, ?_⟩, rfl, rfl, rfl⟩
      · intro hz
        simp only [sizeInv] at hz ⊢
        show idx.size + r.payloadSize - recSum tk = _
        have hall : ∀ q ∈ tk, mapGet (mapSet idx.refs r.payloadCID r) q.payloadCID = some q :=
          fun q hq => hagree1 q (htk_sub q hq)
        have hds := delKeys_sumSizes tk (mapSet idx.refs r.payloadCID r) hall hnd3.1
        rw [f9, ← hrefs2] at *
        omega
      · show mapGet (mapSet _ _ (increment r bl2).1) _ = _
        rw [f10]
        exact mapGet_set_self _ _ _
      · show mapGet (mapSet _ _ (increment r bl2).1) _ = _
        rw [f10]
        exact mapGet_set_self _ _ _
  · have hstep : idx.SetRef r =
        { idx with
            size := idx.size + r.payloadSize
            blist := (increment r idx.blist).2
            refs := mapSet (mapSet idx.refs r.payloadCID r) r.payloadCID
              (increment r idx.blist).1
            root := mapSet idx.root r.payloadCID (increment r idx.blist).1 } := by
      simp [Index.SetRef, hcond]
    rw [hstep]
    rcases setFinish_inv idx.blist (mapSet idx.refs r.payloadCID r) r hasc hne hbid
        hagree1 hcomplete1 hkeyed1 hknd hrnd1 hrget1 hkbl with
      ⟨f1, f2, f3, f4, f5, f6, f7, f8, f9, bid, f10⟩
    refine ⟨⟨f1, f2, f3, f4, f5, f6, f7, f8⟩, ?_, ⟨bid, ?_, ?_⟩, rfl, rfl, rfl⟩
    · intro hz
      simp only [sizeInv] at hz ⊢
      show idx.size + r.payloadSize = _
      rw [f9, hsum1, hz]
    · show mapGet (mapSet _ _ (increment r idx.blist).1) _ = _
      rw [f10]
      exact mapGet_set_self _ _ _
    · show mapGet (mapSet _ _ (increment r idx.blist).1) _ = _
      rw [f10]
      exact mapGet_set_self _ _ _

theorem blistRecs_mem_of (bl : List Bucket) (b : Bucket) (q : DataRef)
    (hb : b ∈ bl) (hq : q ∈ b.entries) : q ∈ blistRecs bl := by
  simp only [blistRecs, List.mem_flatten]
  exact ⟨b.entries, List.mem_map_of_mem _ hb, hq⟩

theorem backPtrOK_of_SInv (idx : Index) (hs : SInv idx) : backPtrOK idx := by
  obtain ⟨_, _, hbid, _, hcomplete, _, _, _⟩ := hs
  intro p hp
  have h1 : p.2 ∈ blistRecs idx.blist := hcomplete p hp
  have h2 : ∃ b ∈ idx.blist, p.2 ∈ b.entries := by
    simpa [blistRecs, List.mem_flatten] using h1
  rcases h2 with ⟨b, hb, hpes⟩
  exact ⟨b, hb, hpes, (hbid b hb p.2 hpes).symm⟩

theorem newIndex_SInv (ub lb : Nat) (mf : List Nat) : SInv (newIndex ub lb mf) := by
  refine ⟨by simp [newIndex], ?_, ?_, ?_, ?_, ?_,
    by simp [newIndex, blistKeys, blistRecs], by simp [newIndex]⟩
  all_goals intro x hx
  · exact absurd hx (by simp [newIndex])
  · exact absurd hx (by simp [newIndex])
  · exact absurd hx (by simp [newIndex, blistRecs])
  · exact absurd hx (by simp [newIndex])
  · exact absurd hx (by simp [newIndex])

/-! ## Run-level preservation of the held-state invariants -/

theorem run_held_inv (ops : List Op) :
    ∀ idx : Index, SInv idx → sizeInv idx → idx.msFails = [] → idx.lb ≤ idx.ub →
      freshSets idx ops = true → noDrops ops = true →
      SInv (idx.run ops) ∧ sizeInv (idx.run ops) ∧
      (idx.run ops).msFails = [] ∧ (idx.run ops).lb ≤ (idx.run ops).ub := by
  induction ops with
  | nil => intro idx hs hz hm hul _ _; exact ⟨hs, hz, hm, hul⟩
  | cons op rest ih =>
    intro idx hs hz hm hul hf hnd
    show SInv ((idx.step op).run rest) ∧ _ ∧ _ ∧ _
    cases op with
    | set r =>
      rw [show freshSets idx (Op.set r :: rest) =
        ((mapGet idx.refs r.payloadCID).isNone && freshSets (idx.step (Op.set r)) rest)
        from rfl, Bool.and_eq_true] at hf
      have hfresh : mapGet idx.refs r.payloadCID = none :=
        Option.isNone_iff_eq_none.mp hf.1
      rcases SetRef_inv idx r hs hm hul hfresh with ⟨h1, h2, _, h4, h5, h6⟩
      exact ih _ h1 (h2 hz) (h4.trans hm)
        (by show (idx.SetRef r).lb ≤ (idx.SetRef r).ub; rw [h5, h6]; exact hul) hf.2 hnd
    | get k =>
      rw [show freshSets idx (Op.get k :: rest) =
        (true && freshSets (idx.step (Op.get k)) rest) from rfl, Bool.and_eq_true] at hf
      rcases GetRef_inv idx k hs with ⟨h1, h2, h3, _, _, h6, h7, h8⟩
      refine ih _ h1 ?_ (h6.trans hm)
        (by show ((idx.GetRef k).2).lb ≤ ((idx.GetRef k).2).ub; rw [h7, h8]; exact hul)
        hf.2 hnd
      simp only [sizeInv] at hz ⊢
      show ((idx.GetRef k).2).size = sumSizes ((idx.GetRef k).2).refs
      rw [h2, h3, hz]
    | peek k =>
      rw [show freshSets idx (Op.peek k :: rest) =
        (true && freshSets (idx.step (Op.peek k)) rest) from rfl, Bool.and_eq_true] at hf
      exact ih _ hs hz hm hul hf.2 hnd
    | drop k =>
      exact absurd hnd (by simp [noDrops])

/-- Claim C5.  For operation sequences started on a fresh index with
`lb ≤ ub`, made of set-ref / get-ref / peek-ref (no drop-ref: see the
counterexample — `DropRef` never deducts the dropped bytes), whose sets
store keys not currently held, and with no sub-store deletion failures, the
held state satisfies the claimed invariants after every prefix, in
particular at the end: bucket ids strictly ascending, no empty bucket,
every held record's back-pointer resolves to the bucket whose id is the
record's bucket id, and the accumulated size is the sum of the held
records' sizes. -/
theorem C5_invariants (ub lb : Nat) (ops : List Op) (hul : lb ≤ ub)
    (hf : freshSets (newIndex ub lb []) ops = true) (hnd : noDrops ops = true) :
    ((((newIndex ub lb []).run ops).blist.map Bucket.id).Chain' (· < ·)) ∧
    (∀ b ∈ ((newIndex ub lb []).run ops).blist, b.entries ≠ []) ∧
    backPtrOK ((newIndex ub lb []).run ops) ∧
    sizeInv ((newIndex ub lb []).run ops) := by
  have h0 : SInv (newIndex ub lb []) := newIndex_SInv ub lb []
  have hz0 : sizeInv (newIndex ub lb []) := by simp [sizeInv, newIndex, sumSizes]
  rcases run_held_inv ops (newIndex ub lb []) h0 hz0 rfl hul hf hnd with ⟨hs, hz, _, _⟩
  exact ⟨hs.1, hs.2.1, backPtrOK_of_SInv _ hs, hz⟩

/-- Witness for C5 at bounds (250,150) and the sequence
set A; set B; get 1; set C (the third set triggers an eviction). -/
theorem C5_witness :
    (150 ≤ 250 ∧
      freshSets (newIndex 250 150 [])
        [Op.set refA, Op.set refB, Op.get 1, Op.set refC] = true ∧
      noDrops [Op.set refA, Op.set refB, Op.get 1, Op.set refC] = true) ∧
    (((((newIndex 250 150 []).run
        [Op.set refA, Op.set refB, Op.get 1, Op.set refC]).blist.map
        Bucket.id).Chain' (· < ·)) ∧
      (∀ b ∈ ((newIndex 250 150 []).run
        [Op.set refA, Op.set refB, Op.get 1, Op.set refC]).blist, b.entries ≠ []) ∧
      backPtrOK ((newIndex 250 150 []).run
        [Op.set refA, Op.set refB, Op.get 1, Op.set refC]) ∧
      sizeInv ((newIndex 250 150 []).run
        [Op.set refA, Op.set refB, Op.get 1, Op.set refC])) :=
  ⟨⟨by decide, by decide, by decide⟩,
    C5_invariants 250 150 [Op.set refA, Op.set refB, Op.get 1, Op.set refC]
      (by decide) (by decide) (by decide)⟩

/-! ## Frequency accounting along repeated reads (claim C3) -/

theorem getRepeat_freq (n : Nat) :
    ∀ (idx : Index) (k : Key) (q : DataRef), SInv idx →
      mapGet idx.refs k = some q → mapGet idx.root k = some q →
      ∃ q', mapGet (idx.run (List.replicate n (Op.get k))).refs k = some q' ∧
        mapGet (idx.run (List.replicate n (Op.get k))).root k = some q' ∧
        q'.freq = q.freq + n := by
  induction n with
  | zero => intro idx k q _ h1 h2; exact ⟨q, h1, h2, by simp⟩
  | succ m ih =>
    intro idx k q hs h1 h2
    show ∃ q', mapGet (((idx.GetRef k).2).run (List.replicate m (Op.get k))).refs k =
        some q' ∧ _ ∧ _
    rcases GetRef_inv idx k hs with ⟨hs', _, _, hat, _, _, _, _⟩
    rcases hat q h1 with ⟨hr, hro⟩
    rcases ih _ k (bumped q) hs' hr hro with ⟨q', hq1, hq2, hq3⟩
    refine ⟨q', hq1, hq2, ?_⟩
    have hb : (bumped q).freq = q.freq + 1 := rfl
    omega

/-- Claim C3.  A record stored by `SetRef` with frequency 0 under a key not
currently held has, after `n` subsequent (successful) `GetRef` calls on its
key, frequency exactly `n` — both in the in-memory held map and in the
record persisted to the root map; the insertion contributes 0 and the first
get yields 1. -/
theorem C3_freq_after_gets (idx : Index) (r : DataRef) (n : Nat)
    (hs : SInv idx) (hmf : idx.msFails = []) (hul : idx.lb ≤ idx.ub)
    (hfresh : mapGet idx.refs r.payloadCID = none) (hf0 : r.freq = 0) :
    ∃ q, mapGet ((idx.SetRef r).run (List.replicate n (Op.get r.payloadCID))).refs
        r.payloadCID = some q ∧
      mapGet ((idx.SetRef r).run (List.replicate n (Op.get r.payloadCID))).root
        r.payloadCID = some q ∧
      q.freq = n := by
  rcases SetRef_inv idx r hs hmf hul hfresh with ⟨hs1, _, ⟨bid, hr1, hr2⟩, _, _, _⟩
  rcases getRepeat_freq n (idx.SetRef r) r.payloadCID _ hs1 hr1 hr2 with
    ⟨q', h1, h2, h3⟩
  refine ⟨q', h1, h2, ?_⟩
  have hb : ({ r with bucketID := bid } : DataRef).freq = r.freq := rfl
  omega

/-- Witness for C3: fresh index, record A (freq 0), three reads. -/
theorem C3_witness :
    (SInv (newIndex 0 0 []) ∧ (newIndex 0 0 []).msFails = [] ∧
      (newIndex 0 0 []).lb ≤ (newIndex 0 0 []).ub ∧
      mapGet (newIndex 0 0 []).refs refA.payloadCID = none ∧ refA.freq = 0) ∧
    (∃ q, mapGet (((newIndex 0 0 []).SetRef refA).run
          (List.replicate 3 (Op.get refA.payloadCID))).refs refA.payloadCID = some q ∧
      mapGet (((newIndex 0 0 []).SetRef refA).run
          (List.replicate 3 (Op.get refA.payloadCID))).root refA.payloadCID = some q ∧
      q.freq = 3) :=
  ⟨⟨newIndex_SInv 0 0 [], by decide, by decide, by decide, by decide⟩,
    C3_freq_after_gets (newIndex 0 0 []) refA 3 (newIndex_SInv 0 0 []) (by decide)
      (by decide) (by decide) (by decide)⟩

/-! ## LFU order of `ListRefs` along sets-then-gets sequences (claim C2) -/

theorem evictEntries_kept_sub (mf : List Nat) (t : Nat) :
    ∀ (es : List DataRef) (refs : List (Key × DataRef)) (size ev : Nat),
      ∀ q ∈ (evictEntries mf t es refs size ev).kept, q ∈ es := by
  intro es
  induction es with
  | nil =>
    intro refs size ev q hq
    simp [evictEntries] at hq
  | cons r rs ih =>
    intro refs size ev q hq
    by_cases h1 : r.storeID ∈ mf
    · simp only [evictEntries, if_pos h1] at hq
      rcases List.mem_cons.mp hq with rfl | hq2
      · exact List.mem_cons_self _ _
      · exact List.mem_cons_of_mem _ (ih _ _ _ q hq2)
    · by_cases h2 : t ≤ ev + r.payloadSize
      · simp only [evictEntries, if_neg h1, if_pos h2] at hq
        exact List.mem_cons_of_mem _ hq
      · simp only [evictEntries, if_neg h1, if_neg h2] at hq
        exact List.mem_cons_of_mem _ (ih _ _ _ q hq)

theorem evictGo_sub (mf : List Nat) (t : Nat) :
    ∀ (bl : List Bucket) (refs : List (Key × DataRef)) (size ev : Nat),
      ∀ b' ∈ (evictGo mf t bl refs size ev).blist,
        ∃ b ∈ bl, b'.id = b.id ∧ ∀ q ∈ b'.entries, q ∈ b.entries := by
  intro bl
  induction bl with
  | nil =>
    intro refs size ev b' hb'
    simp [evictGo] at hb'
  | cons b rest ih =>
    intro refs size ev b' hb'
    by_cases hhit : (evictEntries mf t b.entries refs size ev).hit
    · simp only [evictGo, if_pos hhit] at hb'
      by_cases hk : (evictEntries mf t b.entries refs size ev).kept.isEmpty
      · rw [if_pos hk] at hb'
        exact ⟨b', List.mem_cons_of_mem _ hb', rfl, fun q hq => hq⟩
      · rw [if_neg hk] at hb'
        rcases List.mem_cons.mp hb' with rfl | hb2
        · exact ⟨b, List.mem_cons_self _ _, rfl, fun q hq =>
            evictEntries_kept_sub mf t b.entries refs size ev q hq⟩
        · exact ⟨b', List.mem_cons_of_mem _ hb2, rfl, fun q hq => hq⟩
    · by_cases hk : (evictEntries mf t b.entries refs size ev).kept.isEmpty
      · simp only [evictGo, if_neg hhit, if_pos hk] at hb'
        exact ⟨b', List.mem_cons_of_mem _ hb', rfl, fun q hq => hq⟩
      · simp only [evictGo, if_neg hhit, if_neg hk] at hb'
        rcases List.mem_cons.mp hb' with rfl | hb2
        · exact ⟨b, List.mem_cons_self _ _, rfl, fun q hq =>
            evictEntries_kept_sub mf t b.entries refs size ev q hq⟩
        · rcases ih _ _ _ b' hb2 with ⟨b₀, hb₀, hid, hsub⟩
          exact ⟨b₀, List.mem_cons_of_mem _ hb₀, hid, hsub⟩

theorem evictGo_keys_sub (mf : List Nat) (t : Nat) (bl : List Bucket)
    (refs : List (Key × DataRef)) (size ev : Nat) :
    ∀ a ∈ blistKeys (evictGo mf t bl refs size ev).blist, a ∈ blistKeys bl := by
  intro a ha
  rcases List.mem_map.mp ha with ⟨q, hq, rfl⟩
  have hq2 : ∃ b' ∈ (evictGo mf t bl refs size ev).blist, q ∈ b'.entries := by
    simpa [blistRecs, List.mem_flatten] using hq
  rcases hq2 with ⟨b', hb', hqb⟩
  rcases evictGo_sub mf t bl refs size ev b' hb' with ⟨b, hb, _, hsub⟩
  exact List.mem_map_of_mem _ (blistRecs_mem_of bl b q hb (hsub q hqb))

theorem evictGo_flat (mf : List Nat) (t : Nat) (bl : List Bucket)
    (refs : List (Key × DataRef)) (size ev : Nat) (hflat : flatBucket bl) :
    flatBucket (evictGo mf t bl refs size ev).blist := by
  intro b' hb'
  rcases evictGo_sub mf t bl refs size ev b' hb' with ⟨b, hb, hid, hsub⟩
  exact ⟨hid.trans (hflat b hb).1, fun q hq => (hflat b hb).2 q (hsub q hq)⟩

theorem increment_flat (r : DataRef) (bl : List Bucket) (hf0 : r.freq = 0)
    (hk : r.payloadCID ∉ blistKeys bl) (hflat : flatBucket bl) :
    flatBucket (increment r bl).2 := by
  have hw := bumpWalk_none r bl hk
  cases bl with
  | nil =>
    intro b' hb'
    have hinc : increment r [] =
        ({ r with bucketID := 1 }, [⟨1, [{ r with bucketID := 1 }]⟩]) := rfl
    rw [hinc] at hb'
    rcases List.mem_singleton.mp hb' with rfl
    refine ⟨rfl, ?_⟩
    intro q hq
    rcases List.mem_singleton.mp hq with rfl
    exact hf0
  | cons b rest =>
    have hcons : (b :: rest) ≠ [] := by simp
    have hlast : (b :: rest).getLast? = some ((b :: rest).getLast hcons) :=
      List.getLast?_eq_getLast _ hcons
    have hinc : (increment r (b :: rest)).2 =
        pushBackJoin { r with bucketID := ((b :: rest).getLast hcons).id } (b :: rest) := by
      simp [increment, hw, hlast]
    rw [hinc]
    intro b' hb'
    rcases pushBackJoin_mem _ _ hcons b' hb' with h | ⟨b₀, hb₀, rfl⟩
    · exact hflat b' h
    · have hb₀eq : b₀ = (b :: rest).getLast hcons := by
        rw [hlast] at hb₀
        exact (Option.some.injEq _ _).mp hb₀.symm
      subst hb₀eq
      have hmem := List.getLast_mem hcons
      refine ⟨(hflat _ hmem).1, ?_⟩
      intro q hq
      rcases List.mem_append.mp hq with hq | hq
      · exact (hflat _ hmem).2 q hq
      · rcases List.mem_singleton.mp hq with rfl
        exact hf0

theorem SetRef_flat (idx : Index) (r : DataRef) (hs : SInv idx)
    (hfresh : mapGet idx.refs r.payloadCID = none) (hf0 : r.freq = 0)
    (hflat : flatBucket idx.blist) : flatBucket (idx.SetRef r).blist := by
  obtain ⟨_, _, _, hagree, _, _, _, _⟩ := hs
  have hkbl : r.payloadCID ∉ blistKeys idx.blist := by
    intro hc
    rcases List.mem_map.mp hc with ⟨q, hq, hqk⟩
    have hcontra := hagree q hq
    rw [hqk, hfresh] at hcontra
    exact Option.noConfusion hcontra
  by_cases hcond : 0 < idx.ub ∧ 0 < idx.lb ∧ idx.ub < idx.size + r.payloadSize
  · have hstep : (idx.SetRef r).blist =
        (increment r (evictGo idx.msFails (idx.size + r.payloadSize - idx.lb) idx.blist
          (mapSet idx.refs r.payloadCID r) (idx.size + r.payloadSize) 0).blist).2 := by
      simp [Index.SetRef, Index.evict, hcond]
    rw [hstep]
    refine increment_flat r _ hf0 ?_ (evictGo_flat _ _ _ _ _ _ hflat)
    intro hc
    exact hkbl (evictGo_keys_sub _ _ _ _ _ _ _ hc)
  · have hstep : (idx.SetRef r).blist = (increment r idx.blist).2 := by
      simp [Index.SetRef, hcond]
    rw [hstep]
    exact increment_flat r _ hf0 hkbl hflat

theorem GetRef_freqLink (idx : Index) (k : Key) (hs : SInv idx)
    (hfl : freqLinkR idx.blist) : freqLinkR ((idx.GetRef k).2).blist := by
  obtain ⟨hasc, hne, hbid, hagree, hcomplete, hkeyed, hknd, hrnd⟩ := hs
  cases hq : mapGet idx.refs k with
  | none =>
    have hstep : (idx.GetRef k).2 = idx := by simp [Index.GetRef, hq]
    rw [hstep]
    exact hfl
  | some q0 =>
    have hq0recs : q0 ∈ blistRecs idx.blist := hcomplete (k, q0) (mapGet_mem _ _ _ hq)
    rcases bumpWalk_spec q0 idx.blist hasc hne hbid hknd hq0recs with
      ⟨bl', rem, heq, hp1, hp2, _, _, _, _⟩
    have hinc : increment q0 idx.blist = (bumped q0, bl') := by simp [increment, heq]
    have hstep : ((idx.GetRef k).2).blist = bl' := by simp [Index.GetRef, hq, hinc]
    rw [hstep]
    intro q hqm
    rcases List.mem_cons.mp (hp2.mem_iff.mp hqm) with rfl | hq2
    · have h0 := hfl q0 hq0recs
      show q0.bucketID + 1 = (q0.freq + 1) + 1
      omega
    · exact hfl q (hp1.mem_iff.mpr (List.mem_cons_of_mem _ hq2))

theorem freqLink_of_flat (bl : List Bucket)
    (hbid : ∀ b ∈ bl, ∀ q ∈ b.entries, q.bucketID = b.id)
    (hflat : flatBucket bl) : freqLinkR bl := by
  intro q hq
  have h2 : ∃ b ∈ bl, q ∈ b.entries := by
    simpa [blistRecs, List.mem_flatten] using hq
  rcases h2 with ⟨b, hb, hqes⟩
  rw [hbid b hb q hqes, (hflat b hb).1, (hflat b hb).2 q hqes]
  rfl

theorem pairwise_le_of_const (c : Int) (xs : List Int) (h : ∀ x ∈ xs, x = c) :
    xs.Pairwise (· ≤ ·) := by
  induction xs with
  | nil => exact List.Pairwise.nil
  | cons x rest ih =>
    refine List.Pairwise.cons ?_ (ih fun y hy => h y (List.mem_cons_of_mem _ hy))
    intro y hy
    rw [h x (List.mem_cons_self _ _), h y (List.mem_cons_of_mem _ hy)]

theorem sorted_of_freqLink (bl : List Bucket)
    (hasc : (bl.map Bucket.id).Chain' (· < ·))
    (hbid : ∀ b ∈ bl, ∀ q ∈ b.entries, q.bucketID = b.id)
    (hfl : freqLinkR bl) :
    ((blistRecs bl).map DataRef.freq).Pairwise (· ≤ ·) := by
  induction bl with
  | nil => simp [blistRecs]
  | cons b rest ih =>
    rw [blistRecs_cons, List.map_append]
    have hascp : (List.map Bucket.id (b :: rest)).Pairwise (· < ·) :=
      List.chain'_iff_pairwise.mp hasc
    rw [List.map_cons, List.pairwise_cons] at hascp
    refine List.pairwise_append.mpr ⟨?_, ?_, ?_⟩
    · refine pairwise_le_of_const (b.id - 1) _ ?_
      intro x hx
      rcases List.mem_map.mp hx with ⟨q, hq, rfl⟩
      have h1 := hbid b (List.mem_cons_self _ _) q hq
      have h2 := hfl q (blistRecs_mem_of _ _ _ (List.mem_cons_self _ _) hq)
      omega
    · refine ih (List.chain'_iff_pairwise.mpr hascp.2) ?_ ?_
      · intro b' hb' q hq
        exact hbid b' (List.mem_cons_of_mem _ hb') q hq
      · intro q hq
        refine hfl q ?_
        rw [blistRecs_cons]
        exact List.mem_append.mpr (Or.inr hq)
    · intro x hx y hy
      rcases List.mem_map.mp hx with ⟨q, hq, rfl⟩
      rcases List.mem_map.mp hy with ⟨p, hp, rfl⟩
      have h2' : ∃ b' ∈ rest, p ∈ b'.entries := by
        simpa [blistRecs, List.mem_flatten] using hp
      rcases h2' with ⟨b', hb', hpes⟩
      have hlt : b.id < b'.id := hascp.1 _ (List.mem_map_of_mem _ hb')
      have hq1 := hbid b (List.mem_cons_self _ _) q hq
      have hq2 := hfl q (blistRecs_mem_of _ _ _ (List.mem_cons_self _ _) hq)
      have hp1 := hbid b' (List.mem_cons_of_mem _ hb') p hpes
      have hp2 := hfl p (blistRecs_mem_of _ _ _ (List.mem_cons_of_mem _ hb') hpes)
      omega

theorem run_sets_flat (ops : List Op) :
    ∀ idx : Index, SInv idx → idx.msFails = [] → idx.lb ≤ idx.ub →
      flatBucket idx.blist → allSets ops = true → freshZeroSets idx ops = true →
      SInv (idx.run ops) ∧ flatBucket (idx.run ops).blist ∧
      (idx.run ops).msFails = [] ∧ (idx.run ops).lb ≤ (idx.run ops).ub := by
  induction ops with
  | nil => intro idx hs hm hul hflat _ _; exact ⟨hs, hflat, hm, hul⟩
  | cons op rest ih =>
    intro idx hs hm hul hflat hS hf
    show SInv ((idx.step op).run rest) ∧ _ ∧ _ ∧ _
    cases op with
    | set r =>
      rw [show freshZeroSets idx (Op.set r :: rest) =
        (((mapGet idx.refs r.payloadCID).isNone && (r.freq == 0)) &&
          freshZeroSets (idx.step (Op.set r)) rest) from rfl,
        Bool.and_eq_true, Bool.and_eq_true] at hf
      have hfresh : mapGet idx.refs r.payloadCID = none :=
        Option.isNone_iff_eq_none.mp hf.1.1
      have hf0 : r.freq = 0 := eq_of_beq hf.1.2
      rcases SetRef_inv idx r hs hm hul hfresh with ⟨h1, _, _, h4, h5, h6⟩
      refine ih _ h1 (h4.trans hm)
        (by show (idx.SetRef r).lb ≤ (idx.SetRef r).ub; rw [h5, h6]; exact hul)
        (SetRef_flat idx r hs hfresh hf0 hflat) (by simpa [allSets] using hS) hf.2
    | get k => exact absurd hS (by simp [allSets])
    | peek k => exact absurd hS (by simp [allSets])
    | drop k => exact absurd hS (by simp [allSets])

theorem run_gets_freqLink (ops : List Op) :
    ∀ idx : Index, SInv idx → freqLinkR idx.blist → allGets ops = true →
      SInv (idx.run ops) ∧ freqLinkR (idx.run ops).blist := by
  induction ops with
  | nil => intro idx hs hfl _; exact ⟨hs, hfl⟩
  | cons op rest ih =>
    intro idx hs hfl hG
    show SInv ((idx.step op).run rest) ∧ _
    cases op with
    | get k =>
      rcases GetRef_inv idx k hs with ⟨h1, _, _, _, _, _, _, _⟩
      exact ih _ h1 (GetRef_freqLink idx k hs hfl) (by simpa [allGets] using hG)
    | set r => exact absurd hG (by simp [allGets])
    | peek k => exact absurd hG (by simp [allGets])
    | drop k => exact absurd hG (by simp [allGets])

/-- Claim C2 (frequency order).  For a sequence of fresh frequency-0
`SetRef`s followed by `GetRef`s on an index built with `lb ≤ ub`,
`ListRefs` yields the held records in non-decreasing frequency order.
(The insertion-order-within-ties part of the claim is refuted by
the tie counterexample.) -/
theorem C2_listRefs_sorted (ub lb : Nat) (sets gets : List Op) (hul : lb ≤ ub)
    (hS : allSets sets = true) (hG : allGets gets = true)
    (hf : freshZeroSets (newIndex ub lb []) sets = true) :
    ((((newIndex ub lb []).run sets).run gets).ListRefs.map DataRef.freq).Pairwise
      (· ≤ ·) := by
  have h0 : SInv (newIndex ub lb []) := newIndex_SInv ub lb []
  have hflat0 : flatBucket (newIndex ub lb []).blist := by
    intro b hb
    exact absurd hb (by simp [newIndex])
  rcases run_sets_flat sets (newIndex ub lb []) h0 rfl hul hflat0 hS hf with
    ⟨hs1, hflat1, _, _⟩
  have hfl1 : freqLinkR ((newIndex ub lb []).run sets).blist :=
    freqLink_of_flat _ hs1.2.2.1 hflat1
  rcases run_gets_freqLink gets _ hs1 hfl1 hG with ⟨hs2, hfl2⟩
  show ((blistRecs (((newIndex ub lb []).run sets).run gets).blist).map
    DataRef.freq).Pairwise (· ≤ ·)
  exact sorted_of_freqLink _ hs2.1 hs2.2.2.1 hfl2

/-- Witness for C2: bounds (0,0), sets A then B, then reads of keys 2, 1, 1. -/
theorem C2_witness :
    ((0:Nat) ≤ 0 ∧ allSets [Op.set refA, Op.set refB] = true ∧
      allGets [Op.get 2, Op.get 1, Op.get 1] = true ∧
      freshZeroSets (newIndex 0 0 []) [Op.set refA, Op.set refB] = true) ∧
    ((((newIndex 0 0 []).run [Op.set refA, Op.set refB]).run
        [Op.get 2, Op.get 1, Op.get 1]).ListRefs.map DataRef.freq).Pairwise
      (· ≤ ·) :=
  ⟨⟨by decide, by decide, by decide, by decide⟩,
    C2_listRefs_sorted 0 0 [Op.set refA, Op.set refB] [Op.get 2, Op.get 1, Op.get 1]
      (by decide) (by decide) (by decide) (by decide)⟩

/-- Claim C1 (amended eviction behaviour).  With both bounds positive,
`lb ≤ ub`, no sub-store deletion failures and a fresh `SetRef` raising the
accumulated size above `ub`, the eviction walk runs with target
`size + |r| − lb` (the post-set size minus the lower bound, not `ub − lb`):
the evicted records are exactly the front-bucket prefix of length
`evCount target front.entries`, their keys leave the held map while the
remaining front-bucket records stay, the post-set size is the pre-eviction
size minus the evicted byte total, and when the front bucket alone can
supply the target the post-set size is at most `lb` (the walk stops at the
first fully drained bucket, so the bound is guaranteed only then). -/
theorem C1_eviction (idx : Index) (r : DataRef) (b : Bucket) (rest : List Bucket)
    (hs : SInv idx) (hmf : idx.msFails = [])
    (hub : 0 < idx.ub) (hlb : 0 < idx.lb) (hul : idx.lb ≤ idx.ub)
    (hfresh : mapGet idx.refs r.payloadCID = none)
    (hover : idx.ub < idx.size + r.payloadSize)
    (hbl : idx.blist = b :: rest) :
    (idx.SetRef r).size =
      idx.size + r.payloadSize -
        recSum (b.entries.take (evCount (idx.size + r.payloadSize - idx.lb) b.entries)) ∧
    (∀ q ∈ b.entries.take (evCount (idx.size + r.payloadSize - idx.lb) b.entries),
      mapGet (idx.SetRef r).refs q.payloadCID = none) ∧
    (∀ q ∈ b.entries.drop (evCount (idx.size + r.payloadSize - idx.lb) b.entries),
      mapGet (idx.SetRef r).refs q.payloadCID = some q) ∧
    (idx.size + r.payloadSize - idx.lb ≤ recSum b.entries →
      (idx.SetRef r).size ≤ idx.lb) := by
  obtain ⟨hasc, hne, hbid, hagree, hcomplete, hkeyed, hknd, hrnd⟩ := hs
  have hcond : 0 < idx.ub ∧ 0 < idx.lb ∧ idx.ub < idx.size + r.payloadSize :=
    ⟨hub, hlb, hover⟩
  have hkbl : r.payloadCID ∉ blistKeys idx.blist := by
    intro hc
    rcases List.mem_map.mp hc with ⟨q, hq, hqk⟩
    have hcontra := hagree q hq
    rw [hqk, hfresh] at hcontra
    exact Option.noConfusion hcontra
  rw [hbl] at hasc hne hbid hagree hcomplete hknd hkbl
  have hrget1 : mapGet (mapSet idx.refs r.payloadCID r) r.payloadCID = some r :=
    mapGet_set_self _ _ _
  have hknotin : r.payloadCID ∉ idx.refs.map Prod.fst := (mapGet_eq_none_iff _ _).mp hfresh
  have hrnd1 : ((mapSet idx.refs r.payloadCID r).map Prod.fst).Nodup := by
    rw [mapSet_fresh _ _ _ hfresh, List.map_append]
    refine List.Nodup.append hrnd (by simp) ?_
    intro a ha hb2
    rcases List.mem_singleton.mp (by simpa using hb2) with rfl
    exact hknotin ha
  have hagree1 : ∀ q ∈ blistRecs (b :: rest),
      mapGet (mapSet idx.refs r.payloadCID r) q.payloadCID = some q := by
    intro q hq
    have hne2 : q.payloadCID ≠ r.payloadCID := by
      intro hc
      exact hkbl (hc ▸ List.mem_map_of_mem DataRef.payloadCID hq)
    rw [mapGet_set_ne _ _ _ _ hne2]
    exact hagree q hq
  have htpos : 0 < idx.size + r.payloadSize - idx.lb := by omega
  have hev := evictEntries_spec (idx.size + r.payloadSize - idx.lb) b.entries
    (mapSet idx.refs r.payloadCID r) (idx.size + r.payloadSize) 0 htpos
  simp only [Nat.sub_zero, Nat.zero_add] at hev
  set n := evCount (idx.size + r.payloadSize - idx.lb) b.entries with hn
  set tk := b.entries.take n with htk
  set dr := b.entries.drop n with hdr
  set bl2 : List Bucket := if dr.isEmpty then rest else { b with entries := dr } :: rest
    with hbl2
  set refs2 := delKeys tk (mapSet idx.refs r.payloadCID r) with hrefs2
  have hstep : idx.SetRef r =
      { idx with
          size := idx.size + r.payloadSize - recSum tk
          blist := (increment r bl2).2
          refs := mapSet refs2 r.payloadCID (increment r bl2).1
          root := mapSet idx.root r.payloadCID (increment r bl2).1 } := by
    simp [Index.SetRef, Index.evict, hcond, hmf, hbl, evictGo_front, hev, hbl2]
  have hkeysplit : ((tk.map DataRef.payloadCID) ++
      ((dr.map DataRef.payloadCID) ++ blistKeys rest)).Nodup := by
    have hb2 : (blistKeys (b :: rest)) =
        tk.map DataRef.payloadCID ++ (dr.map DataRef.payloadCID ++ blistKeys rest) := by
      rw [blistKeys_cons]
      rw [show b.entries = tk ++ dr from (List.take_append_drop n b.entries).symm]
      simp [List.map_append]
    rw [← hb2]
    exact hknd
  have hnd3 := List.nodup_append.mp hkeysplit
  have htk_sub : ∀ q ∈ tk, q ∈ blistRecs (b :: rest) := by
    intro q hq
    rw [blistRecs_cons]
    exact List.mem_append.mpr (Or.inl (List.mem_of_mem_take hq))
  have hkne : ∀ q : DataRef, q ∈ blistRecs (b :: rest) →
      q.payloadCID ≠ r.payloadCID := by
    intro q hq hc
    exact hkbl (hc ▸ List.mem_map_of_mem DataRef.payloadCID hq)
  rw [hstep]
  refine ⟨rfl, ?_, ?_, ?_⟩
  · intro q hq
    show mapGet (mapSet refs2 r.payloadCID (increment r bl2).1) q.payloadCID = none
    rw [mapGet_set_ne _ _ _ _ (hkne q (htk_sub q hq))]
    exact delKeys_get_deleted tk _ hrnd1 q hq
  · intro q hq
    have hqbl : q ∈ blistRecs (b :: rest) := by
      rw [blistRecs_cons]
      exact List.mem_append.mpr (Or.inl (List.mem_of_mem_drop hq))
    show mapGet (mapSet refs2 r.payloadCID (increment r bl2).1) q.payloadCID = some q
    rw [mapGet_set_ne _ _ _ _ (hkne q hqbl)]
    have hnotk : q.payloadCID ∉ tk.map DataRef.payloadCID := by
      intro hc
      exact hnd3.2.2 hc (List.mem_append.mpr (Or.inl (List.mem_map_of_mem _ hq)))
    rw [hrefs2, delKeys_get_notin _ _ _ hnotk]
    exact hagree1 q hqbl
  · intro hreach
    have hr := evCount_reach (idx.size + r.payloadSize - idx.lb) b.entries hreach
    show idx.size + r.payloadSize - recSum tk ≤ idx.lb
    rw [htk, hn]
    omega

/-- Witness for C1: bounds (250,150), held {A,B} in bucket 1 (200 bytes),
fresh set of C=100 raises the size to 300 > 250 and evicts the 150-byte
target prefix {A,B}. -/
theorem C1_witness :
    (SInv (((newIndex 250 150 []).SetRef refA).SetRef refB) ∧
      (((newIndex 250 150 []).SetRef refA).SetRef refB).msFails = [] ∧
      (0:Nat) < 250 ∧ (0:Nat) < 150 ∧ (150:Nat) ≤ 250 ∧
      mapGet (((newIndex 250 150 []).SetRef refA).SetRef refB).refs
        refC.payloadCID = none ∧
      (((newIndex 250 150 []).SetRef refA).SetRef refB).ub <
        (((newIndex 250 150 []).SetRef refA).SetRef refB).size + refC.payloadSize ∧
      (((newIndex 250 150 []).SetRef refA).SetRef refB).blist =
        ⟨1, [{ refA with bucketID := 1 }, { refB with bucketID := 1 }]⟩ :: []) ∧
    ((((newIndex 250 150 []).SetRef refA).SetRef refB).SetRef refC).size =
        (((newIndex 250 150 []).SetRef refA).SetRef refB).size + refC.payloadSize -
          recSum ((Bucket.mk 1 [{ refA with bucketID := 1 },
            { refB with bucketID := 1 }]).entries.take
            (evCount ((((newIndex 250 150 []).SetRef refA).SetRef refB).size +
                refC.payloadSize - 150)
              (Bucket.mk 1 [{ refA with bucketID := 1 },
                { refB with bucketID := 1 }]).entries)) ∧
    (∀ q ∈ (Bucket.mk 1 [{ refA with bucketID := 1 },
        { refB with bucketID := 1 }]).entries.take
          (evCount ((((newIndex 250 150 []).SetRef refA).SetRef refB).size +
              refC.payloadSize - 150)
            (Bucket.mk 1 [{ refA with bucketID := 1 },
              { refB with bucketID := 1 }]).entries),
      mapGet ((((newIndex 250 150 []).SetRef refA).SetRef refB).SetRef refC).refs
        q.payloadCID = none) ∧
    (∀ q ∈ (Bucket.mk 1 [{ refA with bucketID := 1 },
        { refB with bucketID := 1 }]).entries.drop
          (evCount ((((newIndex 250 150 []).SetRef refA).SetRef refB).size +
              refC.payloadSize - 150)
            (Bucket.mk 1 [{ refA with bucketID := 1 },
              { refB with bucketID := 1 }]).entries),
      mapGet ((((newIndex 250 150 []).SetRef refA).SetRef refB).SetRef refC).refs
        q.payloadCID = some q) ∧
    ((((newIndex 250 150 []).SetRef refA).SetRef refB).size + refC.payloadSize - 150 ≤
        recSum (Bucket.mk 1 [{ refA with bucketID := 1 },
          { refB with bucketID := 1 }]).entries →
      ((((newIndex 250 150 []).SetRef refA).SetRef refB).SetRef refC).size ≤ 150) := by
  have hblv : (((newIndex 250 150 []).SetRef refA).SetRef refB).blist =
      [⟨1, [{ refA with bucketID := 1 }, { refB with bucketID := 1 }]⟩] := by decide
  have hsinv : SInv (((newIndex 250 150 []).SetRef refA).SetRef refB) := by
    refine ⟨?_, by decide, by decide, by decide, by decide, by decide, by decide,
      by decide⟩
    rw [hblv]
    simp
  refine ⟨⟨hsinv, by decide, by decide, by decide, by decide, by decide, by decide,
    by decide⟩, ?_⟩
  exact C1_eviction (((newIndex 250 150 []).SetRef refA).SetRef refB) refC
    (Bucket.mk 1 [{ refA with bucketID := 1 }, { refB with bucketID := 1 }]) []
    hsinv (by decide) (by decide) (by decide) (by decide)
    (by decide) (by decide) (by decide)

/-! ## Counterexamples and code-bug evaluations -/

/-- Claim C1, counterexample.  In scenario S3 (bounds (250,150), inserts
A=100, B=100, C=100, no reads) the eviction target is `size − L` = 300 − 150
= 150 — not `U − L` = 100 — so the walk evicts both A and B: the held set
after inserting C is {C} with accumulated size 100, not {B, C} with 200 as
the claim states. -/
theorem C1_counterexample :
    mapGet s3Index.refs 2 = none ∧ s3Index.size = 100 ∧ s3Index.size ≠ 200 := by
  decide

/-- Claim C2, counterexample.  For the sets-then-gets sequence
set A; set B; get B; get A, `ListRefs` returns B before A although both have
frequency 1 and A was inserted first: ties do not follow insertion order
(records of equal frequency sit in one bucket in the order they last joined
it, and the Go map iteration order is unspecified anyway). -/
theorem C2_counterexample :
    tieIndex.ListRefs.map DataRef.payloadCID = [2, 1] ∧
    tieIndex.ListRefs.map DataRef.freq = [1, 1] := by
  decide

/-- Claim C4, counterexample.  After constructing with bounds (0,0) and a
`SetRef` of a 100-byte record, `Available` performs the unsigned subtraction
`ub − size` = 0 − 100, which wraps to `2^64 − 100`; the comparison with the
margin (0) does not catch the wrap, so `Available` returns `2^64 − 100`,
not 0 as the claim states. -/
theorem C4_counterexample :
    s1Index.Available = 2 ^ 64 - 100 ∧ s1Index.Available ≠ 0 := by
  decide

/-- Claim C5, counterexample.  `DropRef` never deducts the dropped record's
bytes from `idx.size`: after `SetRef(A, 100 bytes)` and a successful
`DropRef(A)` the held map is empty but the accumulated size is still 100,
so the size-accounting conjunct of the claimed invariant fails after a
public held-index operation. -/
theorem C5_counterexample :
    s4Dropped.refs = [] ∧ s4Dropped.size = 100 ∧ s4Dropped.size ≠ sumSizes s4Dropped.refs := by
  decide

/-- Claim C6, counterexample.  `SetRef` does not remove its key from the
interest map: after `LoadInterest` of a root containing key 2 (not held) and
a subsequent `SetRef` of key 2, the key lives in the held map and the
interest map at once, so the claimed disjointness fails. -/
theorem C6_counterexample :
    (mapGet loadThenSet.refs 2).isSome ∧ (mapGet loadThenSet.interest 2).isSome := by
  decide

/-- Claim C7 (code bug).  `DropRef` performs every step the claim lists
except the size deduction: after `SetRef(A, 100 bytes)`, `DropRef(A)`
succeeds, empties the held map, removes the bucket-list entry and the
persistent-map entry — a second `DropRef(A)` reports `RefNotFound` — but
`idx.size` remains 100 where the claim (and scenario S4, and the held-state
invariant `size = Σ sizes`) require 0. -/
theorem C7_drop_keeps_size :
    (s1Index.DropRef 1).1 = DropOut.ok ∧
    s4Dropped.refs = [] ∧
    s4Dropped.blist = [] ∧
    mapGet s4Dropped.root 1 = none ∧
    s4Dropped.size = 100 ∧
    (s4Dropped.DropRef 1).1 = DropOut.refNotFound := by
  decide

/-- Claim C9 (code bug).  With default bounds (0,0) — so `available() = 0` —
an empty held index and a non-empty interest list, `Interesting` reads
`idx.blist.Front().Value` without a nil check and panics instead of failing
with "nothing interesting": the claim's "never crashes, including when the
held index is empty" is violated by the code. -/
theorem C9_nil_front_panic :
    fullEmptyInterest.Available = 0 ∧
    fullEmptyInterest.blist = [] ∧
    fullEmptyInterest.Interesting = InterestingOut.nilFrontPanic := by
  decide

/-- Claim C10 (code bug).  The `LoadInterest` walk callback acquires the
held mutex for each key but unlocks it only on the not-held path: after
processing a key that is already held the lock balance is 1, not 0, and the
walk's next key blocks forever acquiring the non-reentrant mutex (`none`),
while a walk whose keys are not held releases the lock between keys
(balance 0).  The claim that the lock is released before the walk resumes —
including on the skip branch — is violated by the code. -/
theorem C10_lock_leak :
    loadKeyLock [1] 1 0 = some 1 ∧
    loadWalkLock [1] [1, 2] 0 = none ∧
    loadWalkLock [1] [2] 0 = some 0 := by
  decide

end Pop
